import Mathlib

/-!
Verification of the instance/assembly discovery engine of
`projects/_not_working/instance_separator.py`.

The embedding uses exact rational arithmetic (`ℚ`) in place of Python
floats.  Opaque scene handles (transforms, shapes, materials) are natural
numbers.  The matrix utilities (`mayatk.xform_utils.matrices.Matrices`) and
`math.dist` live outside this repository; following the specification they
are modelled as an abstract operations record `GeomOps` over an abstract
matrix type, except where a claim needs true matrix algebra, in which case
4×4 rational matrices instantiate that record.
-/

namespace InstanceSep

/-- 3-component vector of exact rationals (Python float triple). -/
abbrev Vec3 : Type := ℚ × ℚ × ℚ

/-- Python `round(q, n)` (half-up on rationals; the banker's-rounding
corner of Python floats is not exercised by any claim). -/
def roundTo (n : ℕ) (q : ℚ) : ℚ := (round (q * (10 : ℚ) ^ n) : ℤ) / (10 : ℚ) ^ n

/-- Round each component to 4 decimals, as the source does for
`world_position` and bounding-box signatures. -/
def roundVec4 (v : Vec3) : Vec3 := (roundTo 4 v.1, roundTo 4 v.2.1, roundTo 4 v.2.2)

/-- Python float modulo for a positive modulus: result has the sign of the
modulus, `q % m = q - m * floor (q / m)`. -/
def fmodQ (q m : ℚ) : ℚ := q - m * (⌊q / m⌋ : ℤ)

/-- `InstanceSeparator._angle_delta`: `(a - b + 180.0) % 360.0 - 180.0`. -/
def angleDelta (a b : ℚ) : ℚ := fmodQ (a - b + 180) 360 - 180

/-- Stable insertion of `a` into `l` w.r.t. the boolean relation `le`
(mirrors the behaviour of Python's stable sort on already-sorted tails). -/
def orderedInsertB (le : α → α → Bool) (a : α) : List α → List α
  | [] => [a]
  | b :: l => if le a b then a :: b :: l else b :: orderedInsertB le a l

/-- Stable sort by a boolean relation; models Python `sorted`/`list.sort`. -/
def sortByB (le : α → α → Bool) : List α → List α
  | [] => []
  | a :: l => orderedInsertB le a (sortByB le l)

/-- Lexicographic boolean order on rational triples (Python tuple order on
`world_position` keys). -/
def vec3Le (a b : Vec3) : Bool :=
  if a.1 < b.1 then true
  else if a.1 = b.1 then
    if a.2.1 < b.2.1 then true
    else if a.2.1 = b.2.1 then decide (a.2.2 ≤ b.2.2)
    else false
  else false

/-- Lexicographic boolean order on material lists (Python tuple order). -/
def listNatLe : List ℕ → List ℕ → Bool
  | [], _ => true
  | _ :: _, [] => false
  | a :: as, b :: bs => if a < b then true else if a = b then listNatLe as bs else false

/-- Separator configuration: the constructor arguments of
`InstanceSeparator` that the discovery pass reads (defaults as in the
source). -/
structure Config where
  tolerance : ℚ := 98 / 100
  require_same_material : Bool := true
  split_shells : Bool := true
  template_position_tolerance : ℚ := 1 / 10
  template_rotation_tolerance : ℚ := 5
  derive_anchor_assemblies : Bool := true
  anchor_capture_multiplier : ℚ := 4
deriving DecidableEq

/-- Modelled from the spec: the external matrix utilities
(`Matrices.mult`, `Matrices.inverse`, `Matrices.decompose` returning
(translation, rotation, scale)) and the Euclidean distance `math.dist`
on 3-vectors.  These live outside `src/`, so they are abstracted as an
operations record; claims about true matrix algebra instantiate it with
4×4 rational matrices. -/
structure GeomOps (M : Type) where
  mult : M → M → M
  inverse : M → M
  decompose : M → Vec3 × Vec3 × Vec3
  dist : Vec3 → Vec3 → ℚ

/-- `InstancePayload`: captured information for one transform. -/
structure InstancePayload (M : Type) where
  transform : ℕ
  shape : ℕ
  matrix : M
  bbox_center : Vec3
  bbox_size : Vec3
  materials : List ℕ
  parent : Option ℕ
  visibility : Bool
  vertex_count : ℕ
  source_transform : ℕ
  local_matrix : M
  world_position : Vec3
deriving DecidableEq

/-- `InstanceGroup`: a prototype payload plus the members grouped onto it. -/
structure InstanceGroup (M : Type) where
  prototype : InstancePayload M
  members : List (InstancePayload M)
deriving DecidableEq

/-- `InstanceGroup.all_payloads`: `[prototype] + members`. -/
def InstanceGroup.allPayloads (g : InstanceGroup M) : List (InstancePayload M) :=
  g.prototype :: g.members

/-- Python `max` on two rationals, written with `if` so that concrete
instances evaluate by unfolding. -/
def maxQ (a b : ℚ) : ℚ := if a ≤ b then b else a

/-- Python `abs` on rationals. -/
def absQ (a : ℚ) : ℚ := if a < 0 then -a else a

/-- The inner `_ratio` helper of `_geometry_matches`:
`1 - |a-b| / max(max(a,b), 1e-6)`. -/
def ratioQ (a b : ℚ) : ℚ := 1 - absQ (a - b) / maxQ (maxQ a b) (1 / 1000000)

/-- `InstanceSeparator._geometry_matches`. -/
def geometryMatches (tolerance : ℚ) (payload prototype : InstancePayload M) : Bool :=
  if payload.vertex_count ≠ prototype.vertex_count then false
  else
    let sa := payload.bbox_size
    let sb := prototype.bbox_size
    let axis_similarity := (ratioQ sa.1 sb.1 + ratioQ sa.2.1 sb.2.1 + ratioQ sa.2.2 sb.2.2) / 3
    let volume_a := maxQ (sa.1 * sa.2.1 * sa.2.2) (1 / 1000000000000)
    let volume_b := maxQ (sb.1 * sb.2.1 * sb.2.2) (1 / 1000000000000)
    let volume_similarity := 1 - absQ (volume_a - volume_b) / maxQ volume_a volume_b
    decide (tolerance ≤ (axis_similarity + volume_similarity) * (1 / 2))

/-- Modelled from the spec's words for claim C1 (refinement target): the
geometry-match formula with the bounding-box volume clamped per axis,
`V = max(size.x, ε) * max(size.y, ε) * max(size.z, ε)`. -/
def specGeometryMatch (eps tolerance : ℚ) (payload prototype : InstancePayload M) : Prop :=
  payload.vertex_count = prototype.vertex_count ∧
    tolerance ≤
      ((ratioQ payload.bbox_size.1 prototype.bbox_size.1 +
          ratioQ payload.bbox_size.2.1 prototype.bbox_size.2.1 +
          ratioQ payload.bbox_size.2.2 prototype.bbox_size.2.2) / 3 +
        (1 -
          absQ (maxQ payload.bbox_size.1 eps * maxQ payload.bbox_size.2.1 eps *
              maxQ payload.bbox_size.2.2 eps -
            maxQ prototype.bbox_size.1 eps * maxQ prototype.bbox_size.2.1 eps *
              maxQ prototype.bbox_size.2.2 eps) /
          maxQ
            (maxQ payload.bbox_size.1 eps * maxQ payload.bbox_size.2.1 eps *
              maxQ payload.bbox_size.2.2 eps)
            (maxQ prototype.bbox_size.1 eps * maxQ prototype.bbox_size.2.1 eps *
              maxQ prototype.bbox_size.2.2 eps))) / 2

/-- Payload with bounding box `0 × 2 × 2` (a degenerate axis), used to
separate the two volume formulas. -/
def cexPayloadA : InstancePayload Unit :=
  ⟨0, 0, (), (0, 0, 0), (0, 2, 2), [], none, true, 8, 0, (), (0, 0, 0)⟩

/-- Payload with bounding box `0 × 3 × 3`, same vertex count. -/
def cexPayloadB : InstancePayload Unit :=
  ⟨1, 1, (), (0, 0, 0), (0, 3, 3), [], none, true, 8, 1, (), (0, 0, 0)⟩


/-- `InstanceSeparator._materials_match`. -/
def materialsMatch (cfg : Config) (payload prototype : InstancePayload M) : Bool :=
  if cfg.require_same_material = false then true
  else decide (payload.materials = prototype.materials)

/-- Predicate of `_match_group`: prototype passes the materials gate and the
geometry gate. -/
def groupAccepts (cfg : Config) (payload : InstancePayload M) (g : InstanceGroup M) : Bool :=
  materialsMatch cfg payload g.prototype && geometryMatches cfg.tolerance payload g.prototype

/-- `InstanceSeparator._match_group`: the first group (in creation order)
whose prototype passes both predicates. -/
def matchGroup (cfg : Config) (payload : InstancePayload M) (groups : List (InstanceGroup M)) :
    Option (InstanceGroup M) :=
  groups.find? (groupAccepts cfg payload)

/-- Index variant of `_match_group`, used to model the in-place
`group.add_member` mutation of `_group_payloads`. -/
def matchGroupIdx (cfg : Config) (payload : InstancePayload M) :
    List (InstanceGroup M) → Option ℕ
  | [] => none
  | g :: rest =>
    if groupAccepts cfg payload g then some 0
    else (matchGroupIdx cfg payload rest).map (· + 1)

/-- Append `payload` to the members of the group at position `i`. -/
def appendMemberAt : List (InstanceGroup M) → ℕ → InstancePayload M → List (InstanceGroup M)
  | [], _, _ => []
  | g :: gs, 0, p => ⟨g.prototype, g.members ++ [p]⟩ :: gs
  | g :: gs, i + 1, p => g :: appendMemberAt gs i p

/-- One iteration of the `_group_payloads` loop. -/
def addPayloadToGroups (cfg : Config) (groups : List (InstanceGroup M))
    (payload : InstancePayload M) : List (InstanceGroup M) :=
  match matchGroupIdx cfg payload groups with
  | none => groups ++ [⟨payload, []⟩]
  | some i => appendMemberAt groups i payload

/-- `InstanceSeparator._group_payloads`. -/
def groupPayloads (cfg : Config) (payloads : List (InstancePayload M)) :
    List (InstanceGroup M) :=
  payloads.foldl (addPayloadToGroups cfg) []

/-- Concatenation of `all_payloads` over a group list. -/
def joinedPayloads (groups : List (InstanceGroup M)) : List (InstancePayload M) :=
  groups.flatMap InstanceGroup.allPayloads

/-- `_component_signature` value: (vertex count, rounded bbox size, materials). -/
abbrev CompSig : Type := ℕ × Vec3 × List ℕ

/-- `InstanceSeparator._component_signature`. -/
def componentSignature (p : InstancePayload M) : CompSig :=
  (p.vertex_count, roundVec4 p.bbox_size, p.materials)

/-- `_matrix_signature` value: translation, rotation, scale rounded. -/
abbrev MatSig : Type := Vec3 × Vec3 × Vec3

/-- `InstanceSeparator._matrix_signature`: translation and scale rounded to 4
decimals, rotation to 2 (the flat 9-tuple is modelled as a triple of
triples). -/
def matrixSignature (env : GeomOps M) (m : M) : MatSig :=
  let d := env.decompose m
  (roundVec4 d.1, (roundTo 2 d.2.1.1, roundTo 2 d.2.1.2.1, roundTo 2 d.2.1.2.2), roundVec4 d.2.2)

/-- `_assembly_component_signature` value. -/
abbrev ASig : Type := CompSig × MatSig

instance : DecidableEq ASig := instDecidableEqProd

instance : DecidableEq (List ASig) := inferInstance

/-- `InstanceSeparator._assembly_component_signature`. -/
def assemblyComponentSignature (env : GeomOps M) (p : InstancePayload M) : ASig :=
  (componentSignature p, matrixSignature env p.local_matrix)

/-- Three-way comparison on rationals (Python `<`). -/
def cmpQ (a b : ℚ) : Ordering := if a < b then .lt else if b < a then .gt else .eq

/-- Three-way comparison on naturals. -/
def cmpNat (a b : ℕ) : Ordering := if a < b then .lt else if b < a then .gt else .eq

/-- Lexicographic comparison on rational triples (Python tuple order). -/
def cmpVec3 (a b : Vec3) : Ordering :=
  (cmpQ a.1 b.1).then ((cmpQ a.2.1 b.2.1).then (cmpQ a.2.2 b.2.2))

/-- Lexicographic comparison on material lists. -/
def cmpListNat : List ℕ → List ℕ → Ordering
  | [], [] => .eq
  | [], _ :: _ => .lt
  | _ :: _, [] => .gt
  | a :: as, b :: bs => (cmpNat a b).then (cmpListNat as bs)

/-- Lexicographic comparison on component signatures. -/
def cmpCompSig (a b : CompSig) : Ordering :=
  (cmpNat a.1 b.1).then ((cmpVec3 a.2.1 b.2.1).then (cmpListNat a.2.2 b.2.2))

/-- Lexicographic comparison on matrix signatures. -/
def cmpMatSig (a b : MatSig) : Ordering :=
  (cmpVec3 a.1 b.1).then ((cmpVec3 a.2.1 b.2.1).then (cmpVec3 a.2.2 b.2.2))

/-- Python tuple `<=` on assembly component signatures, driving `sorted`. -/
def aSigLe (a b : ASig) : Bool :=
  match (cmpCompSig a.1 b.1).then (cmpMatSig a.2 b.2) with
  | .gt => false
  | _ => true

/-- `InstanceSeparator._payload_volume`: per-axis clamped bbox volume. -/
def payloadVolume (p : InstancePayload M) : ℚ :=
  maxQ p.bbox_size.1 (1 / 10000) * maxQ p.bbox_size.2.1 (1 / 10000) *
    maxQ p.bbox_size.2.2 (1 / 10000)

/-- `AssemblyTemplateSlot`. -/
structure AssemblyTemplateSlot (M : Type) where
  slot_id : ℕ
  signature : CompSig
  reference_matrix : M
  prototype_payload : InstancePayload M
  is_root : Bool
deriving DecidableEq

/-- `AssemblyDescriptor` (`matched_slots` is the insertion-ordered dict). -/
structure AssemblyDescriptor (M : Type) where
  source_transform : ℕ
  components : List (InstancePayload M)
  signature : List ASig
  root_component : InstancePayload M
  root_signature : CompSig
  matched_slots : List (ℕ × InstancePayload M)
deriving DecidableEq

/-- Insertion-ordered association list: Python `dict`/`defaultdict(list)`.
`addKeyed` appends to an existing bucket or creates one at the end. -/
def addKeyed [DecidableEq κ] : List (κ × List α) → κ → α → List (κ × List α)
  | [], k, a => [(k, [a])]
  | (k0, v) :: rest, k, a =>
    if k0 = k then (k0, v ++ [a]) :: rest else (k0, v) :: addKeyed rest k a

/-- Dict lookup (keys are unique by construction, first match). -/
def lookupKey [DecidableEq κ] : List (κ × α) → κ → Option α
  | [], _ => none
  | (k0, v) :: rest, k => if k0 = k then some v else lookupKey rest k

/-- Availability pools keyed by component signature
(`defaultdict(list)` in the source). -/
abbrev Avail (M : Type) : Type := List (CompSig × List (InstancePayload M))

/-- `availability.get(sig, [])`. -/
def lookupAvail (av : Avail M) (sig : CompSig) : List (InstancePayload M) :=
  (lookupKey av sig).getD []

/-- Replace a bucket in place (models mutating the list object held by the
dict). -/
def setAvail : Avail M → CompSig → List (InstancePayload M) → Avail M
  | [], sig, v => [(sig, v)]
  | (k, x) :: rest, sig, v =>
    if k = sig then (k, v) :: rest else (k, x) :: setAvail rest sig v

/-- All payloads held by an availability pool. -/
def flattenAvail (av : Avail M) : List (InstancePayload M) := (av.map Prod.snd).flatten

/-- The best-candidate loop of `_match_anchor_to_template_slots` /
`_match_assembly_to_template`: keep the first candidate whose score is
strictly smaller than the current best; skip gated-out (`None`) scores. -/
def pickBestAux (score : α → Option ℚ) : List α → ℕ → Option (ℕ × α × ℚ) → Option (ℕ × α × ℚ)
  | [], _, best => best
  | p :: rest, idx, best =>
    match score p, best with
    | none, _ => pickBestAux score rest (idx + 1) best
    | some s, none => pickBestAux score rest (idx + 1) (some (idx, p, s))
    | some s, some (bi, bp, bs) =>
      if s < bs then pickBestAux score rest (idx + 1) (some (idx, p, s))
      else pickBestAux score rest (idx + 1) (some (bi, bp, bs))

/-- Best eligible candidate with its index and score. -/
def pickBest (score : α → Option ℚ) (candidates : List α) : Option (ℕ × α × ℚ) :=
  pickBestAux score candidates 0 none

/-- `InstanceSeparator._relative_matrix`. -/
def relativeMatrix (env : GeomOps M) (root_matrix payload_matrix : M) : M :=
  env.mult (env.inverse root_matrix) payload_matrix

/-- `InstanceSeparator._translation_within_tolerance`. -/
def translationWithinTolerance (cfg : Config) (env : GeomOps M) (candidate reference : M) :
    Bool × ℚ :=
  let delta := env.dist (env.decompose candidate).1 (env.decompose reference).1
  (decide (delta ≤ cfg.template_position_tolerance), delta)

/-- `InstanceSeparator._rotation_within_tolerance`: maximum per-axis absolute
wrapped angular difference. -/
def rotationWithinTolerance (cfg : Config) (env : GeomOps M) (candidate reference : M) :
    Bool × ℚ :=
  let cr := (env.decompose candidate).2.1
  let rr := (env.decompose reference).2.1
  let max_delta := maxQ (maxQ (absQ (angleDelta cr.1 rr.1)) (absQ (angleDelta cr.2.1 rr.2.1)))
    (absQ (angleDelta cr.2.2 rr.2.2))
  (decide (max_delta ≤ cfg.template_rotation_tolerance), max_delta)

/-- `InstanceSeparator._matrix_difference_score`: `None` when either hard
gate fails, otherwise `translationDelta + rotationDelta / max(rotTol, 1e-3)`. -/
def matrixDifferenceScore (cfg : Config) (env : GeomOps M) (candidate reference : M) :
    Option ℚ :=
  let t := translationWithinTolerance cfg env candidate reference
  let r := rotationWithinTolerance cfg env candidate reference
  if t.1 && r.1 then
    some (t.2 + r.2 / maxQ cfg.template_rotation_tolerance (1 / 1000))
  else none

/-- Score of one candidate for one slot during per-anchor matching. -/
def slotScore (cfg : Config) (env : GeomOps M) (anchor : InstancePayload M)
    (slot : AssemblyTemplateSlot M) (payload : InstancePayload M) : Option ℚ :=
  matrixDifferenceScore cfg env (relativeMatrix env anchor.matrix payload.matrix)
    slot.reference_matrix

/-- Loop body of `_match_anchor_to_template_slots`.  The availability pool is
the shared mutable dict, so it is threaded in and out even on failure (a
failed anchor leaves its earlier pops in place, as in the source). -/
def matchAnchorAux (score : AssemblyTemplateSlot M → InstancePayload M → Option ℚ)
    (anchor : InstancePayload M) :
    List (AssemblyTemplateSlot M) → Avail M → List (ℕ × InstancePayload M) →
    Option (List (ℕ × InstancePayload M)) × Avail M
  | [], avail, acc => (some acc, avail)
  | slot :: rest, avail, acc =>
    if slot.is_root then
      matchAnchorAux score anchor rest avail (acc ++ [(slot.slot_id, anchor)])
    else
      let cands := lookupAvail avail slot.signature
      match pickBest (score slot) cands with
      | none => (none, avail)
      | some (i, p, _) =>
        matchAnchorAux score anchor rest (setAvail avail slot.signature (cands.eraseIdx i))
          (acc ++ [(slot.slot_id, p)])

/-- `InstanceSeparator._match_anchor_to_template_slots`. -/
def matchAnchorToTemplateSlots (cfg : Config) (env : GeomOps M) (anchor : InstancePayload M)
    (template_slots : List (AssemblyTemplateSlot M)) (availability : Avail M) :
    Option (List (ℕ × InstancePayload M)) × Avail M :=
  matchAnchorAux (slotScore cfg env anchor) anchor template_slots availability []

/-- Loop body of `_match_assembly_to_template` (no root special case; the
winner is removed with `list.remove`, i.e. first equal occurrence). -/
def matchAssemblyAux [DecidableEq M]
    (score : AssemblyTemplateSlot M → InstancePayload M → Option ℚ) :
    List (AssemblyTemplateSlot M) → Avail M → List (ℕ × InstancePayload M) →
    Option (List (ℕ × InstancePayload M))
  | [], _, acc => some acc
  | slot :: rest, avail, acc =>
    let cands := lookupAvail avail slot.signature
    match pickBest (score slot) cands with
    | none => none
    | some (_, p, _) =>
      matchAssemblyAux score rest (setAvail avail slot.signature (cands.erase p))
        (acc ++ [(slot.slot_id, p)])

/-- Bucket a component list by component signature (the `available` dict of
`_match_assembly_to_template`). -/
def buildAvailOfComponents (comps : List (InstancePayload M)) : Avail M :=
  comps.foldl (fun av p => addKeyed av (componentSignature p) p) []

/-- `InstanceSeparator._match_assembly_to_template`. -/
def matchAssemblyToTemplate [DecidableEq M] (cfg : Config) (env : GeomOps M)
    (descriptor : AssemblyDescriptor M) (template_slots : List (AssemblyTemplateSlot M)) :
    Option (List (ℕ × InstancePayload M)) :=
  matchAssemblyAux
    (fun slot p =>
      matrixDifferenceScore cfg env
        (relativeMatrix env descriptor.root_component.matrix p.matrix) slot.reference_matrix)
    template_slots (buildAvailOfComponents descriptor.components) []

/-- Ordering payloads by `world_position` (key of Python `sorted`). -/
def worldPosLe (a b : InstancePayload M) : Bool := vec3Le a.world_position b.world_position

/-- `InstanceSeparator._build_anchor_availability`: skip consumed payloads and
all anchors, bucket the rest by signature, sort each bucket by world
position. -/
def buildAnchorAvailability (consumed anchors components : List (InstancePayload M)) :
    Avail M :=
  let consumedT := consumed.map InstancePayload.transform
  let anchorT := anchors.map InstancePayload.transform
  let base := components.foldl
    (fun av p =>
      if p.transform ∈ consumedT then av
      else if p.transform ∈ anchorT then av
      else addKeyed av (componentSignature p) p)
    []
  base.map (fun kv => (kv.1, sortByB worldPosLe kv.2))

/-- `InstanceSeparator._payload_distance` (`math.dist` on world positions). -/
def payloadDistance (env : GeomOps M) (a b : InstancePayload M) : ℚ :=
  env.dist a.world_position b.world_position

/-- `InstanceSeparator._neighbor_radius`. -/
def neighborRadius [DecidableEq M] (cfg : Config) (env : GeomOps M)
    (anchor : InstancePayload M) (components : List (InstancePayload M))
    (assembly_count : ℕ) : ℚ :=
  if assembly_count = 0 then 1
  else
    let distances := (components.filter (fun p => p ≠ anchor)).map (payloadDistance env anchor)
    if distances.isEmpty then 1
    else
      let sortedDistances := sortByB (fun a b => decide (a ≤ b)) distances
      let approx_components :=
        max ((components.length + max assembly_count 1 - 1) / max assembly_count 1) 1
      let neighbor_index := min (sortedDistances.length - 1) (approx_components - 1)
      sortedDistances.getD neighbor_index 0 + cfg.template_position_tolerance

/-- `InstanceSeparator._anchor_capture_radius`. -/
def anchorCaptureRadius [DecidableEq M] (cfg : Config) (env : GeomOps M)
    (anchor : InstancePayload M) (components : List (InstancePayload M))
    (assembly_count : ℕ) : ℚ :=
  let longest_axis := maxQ (maxQ anchor.bbox_size.1 anchor.bbox_size.2.1) anchor.bbox_size.2.2
  let scale_radius := maxQ (longest_axis * cfg.anchor_capture_multiplier) 1
  maxQ scale_radius (neighborRadius cfg env anchor components assembly_count)

/-- Modelled from the spec's words for claim C4 (refinement target): capture
radius `max(longestBBoxAxis * anchorCaptureMultiplier, neighborRadius)`
with no further clamping. -/
def specCaptureRadius [DecidableEq M] (cfg : Config) (env : GeomOps M)
    (anchor : InstancePayload M) (components : List (InstancePayload M))
    (assembly_count : ℕ) : ℚ :=
  maxQ
    (maxQ (maxQ anchor.bbox_size.1 anchor.bbox_size.2.1) anchor.bbox_size.2.2 *
      cfg.anchor_capture_multiplier)
    (neighborRadius cfg env anchor components assembly_count)

/-- Pair list elements with indices starting at `k` (Python `enumerate`). -/
def idxFrom (k : ℕ) : List α → List (ℕ × α)
  | [] => []
  | a :: l => (k, a) :: idxFrom (k + 1) l

/-- `InstanceSeparator._build_anchor_template_slots`: every component within
the capture radius becomes a slot; `is_root` marks the anchor itself. -/
def buildAnchorTemplateSlots [DecidableEq M] (cfg : Config) (env : GeomOps M)
    (anchor : InstancePayload M) (components : List (InstancePayload M))
    (assembly_count : ℕ) : List (AssemblyTemplateSlot M) :=
  let capture_radius := anchorCaptureRadius cfg env anchor components assembly_count
  let captured := components.filter
    (fun p => decide (payloadDistance env anchor p ≤ capture_radius))
  (idxFrom 0 captured).map (fun ip =>
    ⟨ip.1, componentSignature ip.2, relativeMatrix env anchor.matrix ip.2.matrix, ip.2,
      decide (ip.2 = anchor)⟩)

/-- `InstanceSeparator._build_template_slots` (template from a reference
descriptor, matrices relative to its root component). -/
def buildTemplateSlots [DecidableEq M] (env : GeomOps M) (d : AssemblyDescriptor M) :
    List (AssemblyTemplateSlot M) :=
  (idxFrom 0 d.components).map (fun ip =>
    ⟨ip.1, componentSignature ip.2, relativeMatrix env d.root_component.matrix ip.2.matrix,
      ip.2, decide (ip.2 = d.root_component)⟩)

/-- Sorted assembly signature of a component list. -/
def descriptorSignature (env : GeomOps M) (comps : List (InstancePayload M)) : List ASig :=
  sortByB aSigLe (comps.map (assemblyComponentSignature env))

/-- Python `max(components, key=_payload_volume)`: the first component of
maximal clamped volume (later elements replace only when strictly larger). -/
def maxByVolume : List (InstancePayload M) → InstancePayload M → InstancePayload M
  | [], best => best
  | p :: rest, best =>
    maxByVolume rest (if payloadVolume best < payloadVolume p then p else best)

/-- Root of a component list; `none` for an empty list (where the Python
`max` would raise, which is unreachable at every call site). -/
def rootOfComponents : List (InstancePayload M) → Option (InstancePayload M)
  | [] => none
  | p :: rest => some (maxByVolume rest p)

/-- `InstanceSeparator._descriptor_from_components`. -/
def descriptorFromComponents (env : GeomOps M) (source_transform : ℕ)
    (comps : List (InstancePayload M)) : Option (AssemblyDescriptor M) :=
  match rootOfComponents comps with
  | none => none
  | some root =>
    some ⟨source_transform, comps, descriptorSignature env comps, root,
      componentSignature root, []⟩

/-- Look up every template slot's payload in order (`_descriptor_from_slot_
mapping` loop); `none` when some slot has no assignment. -/
def orderedSlotPayloads (slot_payloads : List (ℕ × InstancePayload M)) :
    List (AssemblyTemplateSlot M) → Option (List (InstancePayload M))
  | [] => some []
  | slot :: rest =>
    match lookupKey slot_payloads slot.slot_id, orderedSlotPayloads slot_payloads rest with
    | some v, some vs => some (v :: vs)
    | _, _ => none

/-- `InstanceSeparator._descriptor_from_slot_mapping`: components ordered by
the template slots.  A missing slot raises in the source; `none` models that
unreachable branch. -/
def descriptorFromSlotMapping (env : GeomOps M) (anchor : InstancePayload M)
    (source_transform : ℕ) (slot_payloads : List (ℕ × InstancePayload M))
    (template_slots : List (AssemblyTemplateSlot M)) : Option (AssemblyDescriptor M) :=
  match orderedSlotPayloads slot_payloads template_slots with
  | none => none
  | some ordered =>
    some ⟨source_transform, ordered, descriptorSignature env ordered, anchor,
      componentSignature anchor, slot_payloads⟩

/-- Inner loop of `_select_anchor_payloads` over the volume-sorted candidate
list. -/
def selectAnchorFrom [DecidableEq M] (components : List (InstancePayload M)) :
    List (InstancePayload M) → List (InstancePayload M)
  | [] => []
  | c :: rest =>
    let sig := componentSignature c
    let dups := components.filter (fun p => decide (componentSignature p = sig))
    if 2 ≤ dups.length then sortByB worldPosLe dups
    else selectAnchorFrom components rest

/-- `InstanceSeparator._select_anchor_payloads`. -/
def selectAnchorPayloads [DecidableEq M] (components : List (InstancePayload M)) :
    List (InstancePayload M) :=
  selectAnchorFrom components
    (sortByB (fun a b => decide (payloadVolume b ≤ payloadVolume a)) components)

/-- One anchor step of `_derive_from_template_anchor`: skip the template
anchor, otherwise try the shared availability pool, collecting the
descriptor and the transforms it consumed. -/
def deriveAnchorStep [DecidableEq M] (cfg : Config) (env : GeomOps M)
    (template_anchor : InstancePayload M) (template_slots : List (AssemblyTemplateSlot M))
    (st : List (AssemblyDescriptor M) × Avail M × List ℕ) (anchor : InstancePayload M) :
    List (AssemblyDescriptor M) × Avail M × List ℕ :=
  if anchor = template_anchor then st
  else
    let r := matchAnchorToTemplateSlots cfg env anchor template_slots st.2.1
    match r.1 with
    | none => (st.1, r.2, st.2.2)
    | some ms =>
      match descriptorFromSlotMapping env anchor anchor.transform ms template_slots with
      | none => (st.1, r.2, st.2.2)
      | some d =>
        (st.1 ++ [d], r.2, st.2.2 ++ ms.map (fun pr => pr.2.transform))

/-- `InstanceSeparator._derive_from_template_anchor`. -/
def deriveFromTemplateAnchor [DecidableEq M] (cfg : Config) (env : GeomOps M)
    (template_anchor : InstancePayload M) (anchors components : List (InstancePayload M))
    (source_transform : ℕ) (assembly_count : ℕ) : List (AssemblyDescriptor M) :=
  let template_slots := buildAnchorTemplateSlots cfg env template_anchor components assembly_count
  if template_slots.length ≤ 1 then []
  else
    let root_signature := componentSignature template_anchor
    match template_slots.filter (fun slot => decide (slot.signature = root_signature)) with
    | [root_slot] =>
      if !root_slot.is_root then []
      else
        let template_mapping := template_slots.map (fun slot => (slot.slot_id, slot.prototype_payload))
        match descriptorFromSlotMapping env template_anchor template_anchor.transform
            template_mapping template_slots with
        | none => []
        | some template_descriptor =>
          let availability := buildAnchorAvailability
            (template_mapping.map (fun pr => pr.2)) anchors components
          let final := anchors.foldl
            (deriveAnchorStep cfg env template_anchor template_slots)
            ([template_descriptor], availability, template_mapping.map (fun pr => pr.2.transform))
          if final.1.length ≤ 1 then []
          else
            let unused := components.filter (fun p => p.transform ∉ final.2.2)
            if unused.isEmpty then final.1
            else
              match descriptorFromComponents env source_transform unused with
              | none => final.1
              | some fallback => final.1 ++ [fallback]
    | _ => []

/-- First template anchor whose derivation succeeds
(`_derive_anchor_assemblies` inner loop). -/
def firstDerive [DecidableEq M] (cfg : Config) (env : GeomOps M)
    (anchors components : List (InstancePayload M)) (source_transform : ℕ)
    (assembly_count : ℕ) : List (InstancePayload M) → List (AssemblyDescriptor M)
  | [] => []
  | a :: rest =>
    let ds := deriveFromTemplateAnchor cfg env a anchors components source_transform
      assembly_count
    if ds.isEmpty then firstDerive cfg env anchors components source_transform assembly_count rest
    else ds

/-- `InstanceSeparator._derive_anchor_assemblies`. -/
def deriveAnchorAssemblies [DecidableEq M] (cfg : Config) (env : GeomOps M)
    (source_transform : ℕ) (components : List (InstancePayload M)) :
    List (AssemblyDescriptor M) :=
  if components.length < 2 then []
  else
    let anchors := selectAnchorPayloads components
    if anchors.length < 2 then []
    else firstDerive cfg env anchors components source_transform anchors.length anchors

/-- Bucket payloads by source transform (`_build_assemblies` head). -/
def bucketsBySource (payloads : List (InstancePayload M)) : List (ℕ × List (InstancePayload M)) :=
  payloads.foldl (fun bs p => addKeyed bs p.source_transform p) []

/-- `InstanceSeparator._build_assemblies`. -/
def buildAssemblies [DecidableEq M] (cfg : Config) (env : GeomOps M)
    (payloads : List (InstancePayload M)) : List (AssemblyDescriptor M) :=
  (bucketsBySource payloads).foldl
    (fun acc kv =>
      let anchor_assemblies :=
        if cfg.derive_anchor_assemblies then deriveAnchorAssemblies cfg env kv.1 kv.2 else []
      if !anchor_assemblies.isEmpty then acc ++ anchor_assemblies
      else
        match descriptorFromComponents env kv.1 kv.2 with
        | none => acc
        | some d => acc ++ [d])
    []

/-- Assembly groups refer to descriptors by their position in the input list,
modelling the `id(descriptor)` bookkeeping of `_group_assemblies`. -/
structure AssemblyGroupIdx (M : Type) where
  prototype : ℕ
  template_slots : List (AssemblyTemplateSlot M)
  members : List ℕ
deriving DecidableEq

/-- `InstanceSeparator._select_reference_assembly`: Python `max` by component
count — the first descriptor attaining the maximum. -/
def selectRef (best : ℕ × AssemblyDescriptor M) :
    List (ℕ × AssemblyDescriptor M) → ℕ × AssemblyDescriptor M
  | [] => best
  | x :: rest =>
    selectRef (if best.2.components.length < x.2.components.length then x else best) rest

/-- Signature buckets of `_group_assemblies` (descriptors with an empty
signature are never bucketed). -/
def assemblyBuckets (descs : List (AssemblyDescriptor M)) :
    List (List ASig × List (ℕ × AssemblyDescriptor M)) :=
  (idxFrom 0 descs).foldl
    (fun bs id => if id.2.signature.isEmpty then bs else addKeyed bs id.2.signature id) []

/-- One bucket of `_group_assemblies`: elect the reference, build its
template, keep the members that match every slot.  (The source also stores
`matched_slots` back onto each descriptor; no claim reads that field from
the grouping result, so the mutation is not modelled.) -/
def bucketGroup [DecidableEq M] (cfg : Config) (env : GeomOps M) :
    List (ℕ × AssemblyDescriptor M) → AssemblyGroupIdx M
  | [] => ⟨0, [], []⟩
  | b :: rest =>
    let ref := selectRef b rest
    let slots := buildTemplateSlots env ref.2
    let members := (b :: rest).filter
      (fun id => id.1 ≠ ref.1 && (matchAssemblyToTemplate cfg env id.2 slots).isSome)
    ⟨ref.1, slots, members.map Prod.fst⟩

/-- `InstanceSeparator._group_assemblies`. -/
def groupAssembliesIdx [DecidableEq M] (cfg : Config) (env : GeomOps M)
    (descs : List (AssemblyDescriptor M)) : List (AssemblyGroupIdx M) :=
  let phase1 := (assemblyBuckets descs).map (fun kb => bucketGroup cfg env kb.2)
  let assigned := phase1.flatMap (fun g => g.prototype :: g.members)
  let orphans := (idxFrom 0 descs).filter (fun id => id.1 ∉ assigned)
  phase1 ++ orphans.map (fun id => ⟨id.1, buildTemplateSlots env id.2, []⟩)

/-- Modelled from the spec §6: the read-only Geometry Provider (PyMEL,
`NodeUtils`, `MatUtils`, `XformUtils` queries are external to this
repository).  `getShape`/`shapeIsMesh` model the shape lookup plus the
`nodeType == "mesh"` test; `splitShells` models `_split_transform_shells`
returning already-validated transforms. -/
structure SceneProvider (M : Type) where
  getShape : ℕ → Option ℕ
  shapeIsMesh : ℕ → Bool
  worldMatrix : ℕ → M
  boundingBox : ℕ → Vec3 × Vec3
  materialsOf : ℕ → List ℕ
  parentOf : ℕ → Option ℕ
  visibilityOf : ℕ → Bool
  vertexCountOf : ℕ → ℕ
  needsShellSplit : ℕ → Bool
  splitShells : ℕ → List ℕ

/-- The two per-call registries of the separator
(`_component_to_source`, `_source_world_mats`). -/
structure RegState (M : Type) where
  component_to_source : List (ℕ × ℕ)
  source_world_mats : List (ℕ × M)

/-- Insert a binding only when the key is absent (registration semantics). -/
def insertIfAbsent [DecidableEq κ] (l : List (κ × α)) (k : κ) (a : α) : List (κ × α) :=
  match lookupKey l k with
  | some _ => l
  | none => l ++ [(k, a)]

/-- Overwrite-or-append a binding (`dict[key] = value`). -/
def overwriteKey [DecidableEq κ] : List (κ × α) → κ → α → List (κ × α)
  | [], k, a => [(k, a)]
  | (k0, v) :: rest, k, a =>
    if k0 = k then (k0, a) :: rest else (k0, v) :: overwriteKey rest k a

/-- `InstanceSeparator._register_source_transform` (with a total provider the
identity-matrix fallback branch of the source is dead). -/
def registerSourceTransform (provider : SceneProvider M) (st : RegState M) (t : ℕ) :
    RegState M :=
  ⟨insertIfAbsent st.component_to_source t t,
    insertIfAbsent st.source_world_mats t (provider.worldMatrix t)⟩

/-- `InstanceSeparator._build_payload`.  The source memoises
`worldMatrix(source)` into the registry on a cache miss; the write is a pure
memoisation of the provider function and is modelled by the `getD`
fallback. -/
def buildPayload (env : GeomOps M) (provider : SceneProvider M) (st : RegState M) (t : ℕ) :
    Option (InstancePayload M) :=
  match provider.getShape t with
  | none => none
  | some shape =>
    if !provider.shapeIsMesh shape then none
    else
      let matrix := provider.worldMatrix t
      let translation := (env.decompose matrix).1
      let source := (lookupKey st.component_to_source t).getD t
      let source_matrix := (lookupKey st.source_world_mats source).getD (provider.worldMatrix source)
      let local_matrix := env.mult (env.inverse source_matrix) matrix
      let bb := provider.boundingBox t
      some ⟨t, shape, matrix, bb.1, bb.2,
        sortByB (fun a b => decide (a ≤ b)) (provider.materialsOf t),
        provider.parentOf t, provider.visibilityOf t, provider.vertexCountOf t,
        source, local_matrix, roundVec4 translation⟩

/-- `InstanceSeparator._expand_shells`: register each transform, replace
multi-shell meshes by their shell pieces (mapped back to the original as
source), keep the original when splitting yields nothing. -/
def expandShells (provider : SceneProvider M) :
    List ℕ → RegState M → RegState M × List ℕ
  | [], st => (st, [])
  | t :: rest, st =>
    let st1 := registerSourceTransform provider st t
    if !provider.needsShellSplit t then
      let r := expandShells provider rest st1
      (r.1, t :: r.2)
    else
      let pieces := provider.splitShells t
      if pieces.isEmpty then
        let r := expandShells provider rest st1
        (r.1, t :: r.2)
      else
        let st2 := pieces.foldl
          (fun s n => ⟨overwriteKey s.component_to_source n t, s.source_world_mats⟩) st1
        let r := expandShells provider rest st2
        (r.1, pieces ++ r.2)

/-- `InstanceSeparationResult` (discovery outputs only; the optional rebuild
phase mutates the scene and is outside this embedding). -/
structure InstanceSeparationResult (M : Type) where
  groups : List (InstanceGroup M)
  payload_count : ℕ
  assemblies : List (AssemblyDescriptor M)
  assembly_groups : List (AssemblyGroupIdx M)

/-- `InstanceSeparator.separate`, discovery portion (`rebuild_instances`
disabled).  `st0` is whatever registry state is left over from a previous
call; lines 185-186 of the source reset both dicts before use. -/
def separateDiscover [DecidableEq M] (cfg : Config) (env : GeomOps M)
    (provider : SceneProvider M) (st0 : RegState M) (transforms : List ℕ) :
    Except String (InstanceSeparationResult M) :=
  if transforms.isEmpty then .error "No transforms supplied for instance separation."
  else
    let st1 : RegState M := ⟨[], []⟩
    let st2 := transforms.foldl (registerSourceTransform provider) st1
    let r := if cfg.split_shells then expandShells provider transforms st2 else (st2, transforms)
    let payloads := r.2.filterMap (buildPayload env provider r.1)
    if payloads.isEmpty then
      .error "No mesh payloads discovered; aborting instance separation."
    else
      let assemblies := buildAssemblies cfg env payloads
      .ok ⟨groupPayloads cfg payloads, payloads.length, assemblies,
        groupAssembliesIdx cfg env assemblies⟩



/-- Payloads assigned to non-root slots, in slot order (pairs a slot list
with the assignment list produced for it). -/
def nonRootPayloads : List (AssemblyTemplateSlot M) → List (ℕ × InstancePayload M) →
    List (InstancePayload M)
  | [], _ => []
  | _, [] => []
  | slot :: srest, pr :: prest =>
    if slot.is_root then nonRootPayloads srest prest
    else pr.2 :: nonRootPayloads srest prest

/-- Payloads assigned to root slots, in slot order. -/
def rootPayloads : List (AssemblyTemplateSlot M) → List (ℕ × InstancePayload M) →
    List (InstancePayload M)
  | [], _ => []
  | _, [] => []
  | slot :: srest, pr :: prest =>
    if slot.is_root then pr.2 :: rootPayloads srest prest
    else rootPayloads srest prest



/-- Claim C2's contract over the per-anchor matcher: gate/score formula of
`_matrix_difference_score`, minimal-score selection, removal of the winner
from the shared pool, all-or-nothing failure, and provenance of every
assignment. -/
def PerAnchorMatchingContract (cfg : Config) (env : GeomOps M) : Prop :=
  (∀ candidate reference : M, ∀ sc : ℚ,
    matrixDifferenceScore cfg env candidate reference = some sc ↔
      env.dist (env.decompose candidate).1 (env.decompose reference).1 ≤
          cfg.template_position_tolerance ∧
        maxQ (maxQ
            (absQ (angleDelta (env.decompose candidate).2.1.1 (env.decompose reference).2.1.1))
            (absQ (angleDelta (env.decompose candidate).2.1.2.1
              (env.decompose reference).2.1.2.1)))
          (absQ (angleDelta (env.decompose candidate).2.1.2.2
            (env.decompose reference).2.1.2.2)) ≤ cfg.template_rotation_tolerance ∧
        sc = env.dist (env.decompose candidate).1 (env.decompose reference).1 +
          maxQ (maxQ
              (absQ (angleDelta (env.decompose candidate).2.1.1 (env.decompose reference).2.1.1))
              (absQ (angleDelta (env.decompose candidate).2.1.2.1
                (env.decompose reference).2.1.2.1)))
            (absQ (angleDelta (env.decompose candidate).2.1.2.2
              (env.decompose reference).2.1.2.2)) / cfg.template_rotation_tolerance) ∧
  (∀ (anchor : InstancePayload M) (slot : AssemblyTemplateSlot M)
      (rest : List (AssemblyTemplateSlot M)) (avail : Avail M)
      (acc ms : List (ℕ × InstancePayload M)) (avOut : Avail M),
    slot.is_root = false →
    matchAnchorAux (slotScore cfg env anchor) anchor (slot :: rest) avail acc =
      (some ms, avOut) →
    ∃ i p sc, pickBest (slotScore cfg env anchor slot) (lookupAvail avail slot.signature) =
        some (i, p, sc) ∧
      slotScore cfg env anchor slot p = some sc ∧
      (∀ q ∈ lookupAvail avail slot.signature, ∀ s',
        slotScore cfg env anchor slot q = some s' → sc ≤ s') ∧
      ms.get? acc.length = some (slot.slot_id, p) ∧
      matchAnchorAux (slotScore cfg env anchor) anchor rest
        (setAvail avail slot.signature ((lookupAvail avail slot.signature).eraseIdx i))
        (acc ++ [(slot.slot_id, p)]) = (some ms, avOut)) ∧
  (∀ (anchor : InstancePayload M) (slot : AssemblyTemplateSlot M)
      (rest : List (AssemblyTemplateSlot M)) (avail : Avail M)
      (acc : List (ℕ × InstancePayload M)),
    slot.is_root = false →
    (∀ q ∈ lookupAvail avail slot.signature, slotScore cfg env anchor slot q = none) →
    matchAnchorAux (slotScore cfg env anchor) anchor (slot :: rest) avail acc =
      (none, avail)) ∧
  (∀ (anchor : InstancePayload M) (slots : List (AssemblyTemplateSlot M))
      (avail : Avail M) (ms : List (ℕ × InstancePayload M)) (avOut : Avail M),
    (flattenAvail avail).Nodup →
    matchAnchorToTemplateSlots cfg env anchor slots avail = (some ms, avOut) →
    (nonRootPayloads slots ms).Nodup ∧
      (∀ p ∈ nonRootPayloads slots ms, p ∈ flattenAvail avail ∧ p ∉ flattenAvail avOut) ∧
      (∀ pr ∈ ms, pr.2 = anchor ∨ pr.2 ∈ flattenAvail avail))

/-- Claim C5's contract: whenever either matcher succeeds, the assignment is
a bijection between slots and assigned payloads. -/
def TemplateMatchBijection (cfg : Config) (env : GeomOps M) [DecidableEq M] : Prop :=
  (∀ (anchor : InstancePayload M) (slots : List (AssemblyTemplateSlot M))
      (avail : Avail M) (ms : List (ℕ × InstancePayload M)) (avOut : Avail M),
    (slots.map AssemblyTemplateSlot.slot_id).Nodup →
    (slots.filter (fun s => s.is_root)).length ≤ 1 →
    (flattenAvail avail).Nodup →
    anchor ∉ flattenAvail avail →
    matchAnchorToTemplateSlots cfg env anchor slots avail = (some ms, avOut) →
    ms.map Prod.fst = slots.map AssemblyTemplateSlot.slot_id ∧
      (ms.map Prod.fst).Nodup ∧ (ms.map Prod.snd).Nodup) ∧
  (∀ (descriptor : AssemblyDescriptor M) (slots : List (AssemblyTemplateSlot M))
      (ms : List (ℕ × InstancePayload M)),
    (slots.map AssemblyTemplateSlot.slot_id).Nodup →
    descriptor.components.Nodup →
    matchAssemblyToTemplate cfg env descriptor slots = some ms →
    ms.map Prod.fst = slots.map AssemblyTemplateSlot.slot_id ∧
      (ms.map Prod.fst).Nodup ∧ (ms.map Prod.snd).Nodup)

/-- Trivial geometry operations over `Unit` matrices, used to instantiate
the abstract environment at concrete witnesses. -/
def trivialOps : GeomOps Unit :=
  ⟨fun _ _ => (), fun _ => (), fun _ => ((0, 0, 0), (0, 0, 0), (0, 0, 0)), fun _ _ => 0⟩



/-- A single root template slot over `Unit` matrices, for concrete
witnesses. -/
def slotW : AssemblyTemplateSlot Unit :=
  ⟨0, componentSignature cexPayloadA, (), cexPayloadA, true⟩



/-- Taxicab distance on rational triples.  The concrete counterexamples use
axis-aligned or zero displacements where it coincides with the Euclidean
`math.dist`; it instantiates the abstract `dist` field. -/
def taxiDist (a b : Vec3) : ℚ :=
  absQ (a.1 - b.1) + absQ (a.2.1 - b.2.1) + absQ (a.2.2 - b.2.2)

/-- Concrete operations with taxicab distance over `Unit` matrices. -/
def cexOps : GeomOps Unit :=
  ⟨fun _ _ => (), fun _ => (), fun _ => ((0, 0, 0), (0, 0, 0), (0, 0, 0)), taxiDist⟩

/-- Anchor with a degenerate bounding box (longest axis 0). -/
def cexAnchor : InstancePayload Unit :=
  ⟨2, 2, (), (0, 0, 0), (0, 0, 0), [], none, true, 8, 2, (), (0, 0, 0)⟩

/-- A second component coincident with the anchor. -/
def cexNeighbor : InstancePayload Unit :=
  ⟨3, 3, (), (0, 0, 0), (0, 0, 0), [], none, true, 8, 3, (), (0, 0, 0)⟩



/-- All values held by a keyed bucket list. -/
def keyedFlatten (bs : List (κ × List α)) : List α := (bs.map Prod.snd).flatten

/-- All descriptor indices referenced by a list of assembly groups, each
group contributing its prototype and its members. -/
def allGroupIdx (groups : List (AssemblyGroupIdx M)) : List ℕ :=
  groups.flatMap (fun g => g.prototype :: g.members)



/-- A single-component descriptor with an empty signature, for witnesses. -/
def cexDescriptor : AssemblyDescriptor Unit :=
  ⟨0, [], [], cexPayloadA, componentSignature cexPayloadA, []⟩



/-- 4×4 rational matrices, instantiating the abstract matrix type for the
claims that need true matrix algebra. -/
abbrev Mat4 : Type := Matrix (Fin 4) (Fin 4) ℚ

/-- Modelled from the spec: true matrix operations — `mult` is matrix
multiplication and `inverse` the nonsingular inverse `det⁻¹ • adjugate`
(the external `Matrices` utilities).  Decomposition and distance stay
abstract parameters. -/
def mat4Ops (dec : Mat4 → Vec3 × Vec3 × Vec3) (dist : Vec3 → Vec3 → ℚ) : GeomOps Mat4 :=
  ⟨fun a b => a * b, fun m => m.det⁻¹ • m.adjugate, dec, dist⟩

/-- Scene provider for the matrix witness: one handle backed by a mesh at
the identity world matrix. -/
def wProvider : SceneProvider Mat4 :=
  ⟨fun _ => some 0, fun _ => true, fun _ => 1, fun _ => ((0, 0, 0), (0, 0, 0)),
    fun _ => [], fun _ => none, fun _ => true, fun _ => 0, fun _ => false, fun _ => []⟩

/-- The payload `buildPayload` produces for the witness provider. -/
def wPayload : InstancePayload Mat4 :=
  ⟨0, 0, 1, (0, 0, 0), (0, 0, 0), [], none, true, 0, 0,
    (1 : Mat4).det⁻¹ • (1 : Mat4).adjugate * 1, roundVec4 (0, 0, 0)⟩

/-- The payload list the discovery pass operates on (registration, optional
shell expansion, payload building with null payloads dropped). -/
def discoveredPayloads [DecidableEq M] (cfg : Config) (env : GeomOps M)
    (provider : SceneProvider M) (transforms : List ℕ) : List (InstancePayload M) :=
  let st2 := transforms.foldl (registerSourceTransform provider) ⟨[], []⟩
  let r := if cfg.split_shells then expandShells provider transforms st2 else (st2, transforms)
  r.2.filterMap (buildPayload env provider r.1)


/-- Scene provider over `Unit` matrices whose shape lookup always fails,
for witnesses of the error paths. -/
def nullProvider : SceneProvider Unit :=
  ⟨fun _ => none, fun _ => false, fun _ => (), fun _ => ((0, 0, 0), (0, 0, 0)),
    fun _ => [], fun _ => none, fun _ => true, fun _ => 0, fun _ => false, fun _ => []⟩

/-! ### Theorems -/

theorem orderedInsertB_perm (le : α → α → Bool) (a : α) (l : List α) :
    List.Perm (orderedInsertB le a l) (a :: l) := by
  induction l with
  | nil => simp [orderedInsertB]
  | cons b t ih =>
    by_cases h : le a b
    · simp [orderedInsertB, h]
    · simp only [orderedInsertB, h, if_neg]
      exact (ih.cons b).trans (List.Perm.swap a b t)

theorem sortByB_perm (le : α → α → Bool) (l : List α) : List.Perm (sortByB le l) l := by
  induction l with
  | nil => simp [sortByB]
  | cons a t ih =>
    exact (orderedInsertB_perm le a (sortByB le t)).trans (ih.cons a)

theorem mem_sortByB (le : α → α → Bool) (l : List α) (a : α) :
    a ∈ sortByB le l ↔ a ∈ l := (sortByB_perm le l).mem_iff

theorem maxQ_eq (a b : ℚ) : maxQ a b = max a b := by simp [maxQ, max_def]

theorem absQ_eq (a : ℚ) : absQ a = |a| := by
  by_cases h : a < 0
  · simp [absQ, h, abs_of_neg h]
  · simp [absQ, h, abs_of_nonneg (le_of_not_lt h)]

/-- C1 (counterexample): at bounding boxes `0×2×2` vs `0×3×3` with tolerance
`0.7` the source predicate matches (the degenerate products are both clamped
to `1e-12`, so volume similarity is `1`), while the claimed formula with the
per-axis clamp `max(size.x, ε) * max(size.y, ε) * max(size.z, ε)` rejects. -/
theorem geometry_match_volume_cex :
    geometryMatches (7 / 10) cexPayloadA cexPayloadB = true ∧
      ¬ specGeometryMatch (1 / 1000000) (7 / 10) cexPayloadA cexPayloadB := by
  constructor
  · norm_num [geometryMatches, cexPayloadA, cexPayloadB, ratioQ, maxQ, absQ]
  · norm_num [specGeometryMatch, cexPayloadA, cexPayloadB, ratioQ, maxQ, absQ]

/-- C1 (amended): the geometry-match predicate holds iff the vertex counts
are equal and `(axisSimilarity + volumeSimilarity) / 2 ≥ tolerance`, where
each axis ratio is `1 - |a-b| / max(max(a,b), 1e-6)` and the volumes are the
raw axis products clamped from below by `1e-12` (the clamp applies to the
product, not to each axis). -/
theorem geometry_matches_amended {M : Type} (tolerance : ℚ) (p q : InstancePayload M) :
    geometryMatches tolerance p q = true ↔
      p.vertex_count = q.vertex_count ∧
        tolerance ≤
          ((ratioQ p.bbox_size.1 q.bbox_size.1 + ratioQ p.bbox_size.2.1 q.bbox_size.2.1 +
              ratioQ p.bbox_size.2.2 q.bbox_size.2.2) / 3 +
            (1 -
              absQ (maxQ (p.bbox_size.1 * p.bbox_size.2.1 * p.bbox_size.2.2) (1 / 1000000000000) -
                maxQ (q.bbox_size.1 * q.bbox_size.2.1 * q.bbox_size.2.2) (1 / 1000000000000)) /
              maxQ (maxQ (p.bbox_size.1 * p.bbox_size.2.1 * p.bbox_size.2.2) (1 / 1000000000000))
                (maxQ (q.bbox_size.1 * q.bbox_size.2.1 * q.bbox_size.2.2)
                  (1 / 1000000000000)))) / 2 := by
  unfold geometryMatches
  by_cases h : p.vertex_count = q.vertex_count
  · simp only [h, ne_eq, not_true_eq_false, if_false, decide_eq_true_eq, mul_one_div,
      true_and]
  · simp [h]

@[simp] theorem flattenAvail_nil : flattenAvail ([] : Avail M) = [] := rfl

@[simp] theorem flattenAvail_cons (k : CompSig) (v : List (InstancePayload M)) (rest : Avail M) :
    flattenAvail ((k, v) :: rest) = v ++ flattenAvail rest := rfl

theorem lookupAvail_subset (av : Avail M) (sig : CompSig) :
    ∀ p ∈ lookupAvail av sig, p ∈ flattenAvail av := by
  induction av with
  | nil => simp [lookupAvail, lookupKey]
  | cons kv rest ih =>
    obtain ⟨k, v⟩ := kv
    intro p hp
    by_cases hk : k = sig
    · subst hk
      simp only [lookupAvail, lookupKey, if_pos, Option.getD_some, reduceIte] at hp
      simp [hp]
    · simp only [lookupAvail, lookupKey, if_neg hk] at hp
      simp only [flattenAvail_cons, List.mem_append]
      exact Or.inr (ih p hp)

theorem get?_eraseIdx_perm (l : List α) (i : ℕ) (a : α) (h : l.get? i = some a) :
    List.Perm l (a :: l.eraseIdx i) := by
  induction l generalizing i with
  | nil => simp at h
  | cons b t ih =>
    cases i with
    | zero =>
      simp only [List.get?] at h
      cases h
      simp [List.eraseIdx]
    | succ j =>
      simp only [List.get?] at h
      have hperm := (ih j h).cons b
      exact hperm.trans (List.Perm.swap a b (t.eraseIdx j))

theorem setAvail_extract_perm (av : Avail M) (sig : CompSig) (p : InstancePayload M)
    (cands' : List (InstancePayload M))
    (h : List.Perm (lookupAvail av sig) (p :: cands')) :
    List.Perm (flattenAvail av) (p :: flattenAvail (setAvail av sig cands')) := by
  induction av with
  | nil =>
    exfalso
    have h0 : List.Perm ([] : List (InstancePayload M)) (p :: cands') := by
      simpa [lookupAvail, lookupKey] using h
    exact List.cons_ne_nil p cands' h0.symm.eq_nil
  | cons kv rest ih =>
    obtain ⟨k, v⟩ := kv
    by_cases hk : k = sig
    · subst hk
      simp only [lookupAvail, lookupKey, if_pos, Option.getD_some, reduceIte] at h
      simp only [setAvail, reduceIte, flattenAvail_cons]
      exact h.append_right (flattenAvail rest)
    · simp only [lookupAvail, lookupKey, if_neg hk] at h
      simp only [setAvail, if_neg hk, flattenAvail_cons]
      exact (List.Perm.append_left v (ih h)).trans List.perm_middle

theorem pickBestAux_isSome (score : α → Option ℚ) (l : List α) :
    ∀ (idx : ℕ) (b : ℕ × α × ℚ), pickBestAux score l idx (some b) ≠ none := by
  induction l with
  | nil => intro idx b h; exact Option.noConfusion h
  | cons q rest ih =>
    intro idx b
    obtain ⟨bi, bp, bs⟩ := b
    cases hq : score q with
    | none => simpa [pickBestAux, hq] using ih (idx + 1) (bi, bp, bs)
    | some s0 =>
      simp only [pickBestAux, hq]
      by_cases hlt : s0 < bs
      · simpa [hlt] using ih (idx + 1) (idx, q, s0)
      · simpa [hlt] using ih (idx + 1) (bi, bp, bs)

theorem pickBestAux_none_iff (score : α → Option ℚ) (l : List α) :
    ∀ idx : ℕ, pickBestAux score l idx none = none ↔ ∀ p ∈ l, score p = none := by
  induction l with
  | nil => intro idx; simp [pickBestAux]
  | cons q rest ih =>
    intro idx
    cases hq : score q with
    | none =>
      simp only [pickBestAux, hq]
      rw [ih (idx + 1)]
      constructor
      · intro h p hp
        rcases List.mem_cons.mp hp with rfl | hp
        · exact hq
        · exact h p hp
      · intro h p hp
        exact h p (List.mem_cons_of_mem q hp)
    | some s0 =>
      simp only [pickBestAux, hq]
      constructor
      · intro h
        exact absurd h (pickBestAux_isSome score rest (idx + 1) _)
      · intro h
        have hcontra := h q (List.mem_cons_self q rest)
        rw [hcontra] at hq
        exact Option.noConfusion hq

theorem pickBest_none_iff (score : α → Option ℚ) (cands : List α) :
    pickBest score cands = none ↔ ∀ p ∈ cands, score p = none :=
  pickBestAux_none_iff score cands 0

theorem pickBestAux_spec (score : α → Option ℚ) (l : List α) :
    ∀ (idx : ℕ) (best : Option (ℕ × α × ℚ)) (i : ℕ) (p : α) (s : ℚ),
      pickBestAux score l idx best = some (i, p, s) →
      (∀ q ∈ l, ∀ s', score q = some s' → s ≤ s') ∧
        (best = some (i, p, s) ∨
          (idx ≤ i ∧ l.get? (i - idx) = some p ∧ score p = some s)) ∧
        (∀ bi bp bs, best = some (bi, bp, bs) → s ≤ bs) := by
  induction l with
  | nil =>
    intro idx best i p s h
    simp only [pickBestAux] at h
    subst h
    refine ⟨by simp, Or.inl rfl, ?_⟩
    intro bi bp bs heq
    simp only [Option.some.injEq, Prod.mk.injEq] at heq
    obtain ⟨-, -, rfl⟩ := heq
    exact le_refl s
  | cons q rest ih =>
    intro idx best i p s h
    cases hq : score q with
    | none =>
      simp only [pickBestAux, hq] at h
      obtain ⟨hmin, hmid, hlast⟩ := ih (idx + 1) best i p s h
      refine ⟨?_, ?_, hlast⟩
      · intro x hx s' hs'
        rcases List.mem_cons.mp hx with rfl | hx
        · rw [hq] at hs'; exact Option.noConfusion hs'
        · exact hmin x hx s' hs'
      · rcases hmid with hb | ⟨h1, h2, h3⟩
        · exact Or.inl hb
        · refine Or.inr ⟨by omega, ?_, h3⟩
          have hidx : i - idx = (i - (idx + 1)) + 1 := by omega
          rw [hidx]
          simpa using h2
    | some s0 =>
      cases best with
      | none =>
        simp only [pickBestAux, hq] at h
        obtain ⟨hmin, hmid, hlast⟩ := ih (idx + 1) (some (idx, q, s0)) i p s h
        have hs0 : s ≤ s0 := hlast idx q s0 rfl
        refine ⟨?_, ?_, by simp⟩
        · intro x hx s' hs'
          rcases List.mem_cons.mp hx with rfl | hx
          · rw [hq] at hs'
            cases hs'
            exact hs0
          · exact hmin x hx s' hs'
        · rcases hmid with hb | ⟨h1, h2, h3⟩
          · simp only [Option.some.injEq, Prod.mk.injEq] at hb
            obtain ⟨rfl, rfl, rfl⟩ := hb
            exact Or.inr ⟨le_refl _, by simp [Nat.sub_self, hq], hq⟩
          · refine Or.inr ⟨by omega, ?_, h3⟩
            have hidx : i - idx = (i - (idx + 1)) + 1 := by omega
            rw [hidx]
            simpa using h2
      | some b =>
        obtain ⟨bi, bp, bs⟩ := b
        by_cases hlt : s0 < bs
        · simp only [pickBestAux, hq, if_pos hlt] at h
          obtain ⟨hmin, hmid, hlast⟩ := ih (idx + 1) (some (idx, q, s0)) i p s h
          have hs0 : s ≤ s0 := hlast idx q s0 rfl
          refine ⟨?_, ?_, ?_⟩
          · intro x hx s' hs'
            rcases List.mem_cons.mp hx with rfl | hx
            · rw [hq] at hs'
              cases hs'
              exact hs0
            · exact hmin x hx s' hs'
          · rcases hmid with hb | ⟨h1, h2, h3⟩
            · simp only [Option.some.injEq, Prod.mk.injEq] at hb
              obtain ⟨rfl, rfl, rfl⟩ := hb
              exact Or.inr ⟨le_refl _, by simp [Nat.sub_self, hq], hq⟩
            · refine Or.inr ⟨by omega, ?_, h3⟩
              have hidx : i - idx = (i - (idx + 1)) + 1 := by omega
              rw [hidx]
              simpa using h2
          · intro bi' bp' bs' heq
            simp only [Option.some.injEq, Prod.mk.injEq] at heq
            obtain ⟨-, -, rfl⟩ := heq
            exact le_of_lt (lt_of_le_of_lt hs0 hlt)
        · simp only [pickBestAux, hq, if_neg hlt] at h
          obtain ⟨hmin, hmid, hlast⟩ := ih (idx + 1) (some (bi, bp, bs)) i p s h
          have hbs : s ≤ bs := hlast bi bp bs rfl
          refine ⟨?_, ?_, ?_⟩
          · intro x hx s' hs'
            rcases List.mem_cons.mp hx with rfl | hx
            · rw [hq] at hs'
              cases hs'
              exact le_trans hbs (le_of_not_lt hlt)
            · exact hmin x hx s' hs'
          · rcases hmid with hb | ⟨h1, h2, h3⟩
            · exact Or.inl hb
            · refine Or.inr ⟨by omega, ?_, h3⟩
              have hidx : i - idx = (i - (idx + 1)) + 1 := by omega
              rw [hidx]
              simpa using h2
          · intro bi' bp' bs' heq
            simp only [Option.some.injEq, Prod.mk.injEq] at heq
            obtain ⟨-, -, rfl⟩ := heq
            exact hbs

theorem pickBest_spec (score : α → Option ℚ) (cands : List α) (i : ℕ) (p : α) (s : ℚ)
    (h : pickBest score cands = some (i, p, s)) :
    cands.get? i = some p ∧ score p = some s ∧
      ∀ q ∈ cands, ∀ s', score q = some s' → s ≤ s' := by
  obtain ⟨hmin, hmid, _⟩ := pickBestAux_spec score cands 0 none i p s h
  rcases hmid with hb | ⟨_, h2, h3⟩
  · exact Option.noConfusion hb
  · rw [Nat.sub_zero] at h2
    exact ⟨h2, h3, hmin⟩

theorem forall2_map_fst {R : AssemblyTemplateSlot M → ℕ × InstancePayload M → Prop}
    (hR : ∀ slot pr, R slot pr → pr.1 = slot.slot_id)
    {slots : List (AssemblyTemplateSlot M)} {tail : List (ℕ × InstancePayload M)}
    (h : List.Forall₂ R slots tail) :
    tail.map Prod.fst = slots.map AssemblyTemplateSlot.slot_id := by
  induction h with
  | nil => rfl
  | cons hrel _ ih => simp [ih, hR _ _ hrel]

theorem map_snd_perm_root_nonroot (slots : List (AssemblyTemplateSlot M)) :
    ∀ tail : List (ℕ × InstancePayload M), tail.length = slots.length →
      List.Perm (tail.map Prod.snd)
        (rootPayloads slots tail ++ nonRootPayloads slots tail) := by
  induction slots with
  | nil =>
    intro tail hlen
    rw [List.length_eq_zero.mp hlen]
    simp [rootPayloads, nonRootPayloads]
  | cons slot srest ih =>
    intro tail hlen
    cases tail with
    | nil => simp at hlen
    | cons pr prest =>
      simp only [List.length_cons, Nat.succ.injEq] at hlen
      by_cases hroot : slot.is_root
      · simpa [rootPayloads, nonRootPayloads, hroot] using (ih prest hlen).cons pr.2
      · simp only [rootPayloads, nonRootPayloads, hroot, if_neg, Bool.false_eq_true,
          List.map_cons]
      -- goal: pr.2 :: map snd prest ~ rootPayloads ++ pr.2 :: nonRootPayloads
        exact ((ih prest hlen).cons pr.2).trans List.perm_middle.symm

theorem matchAnchorAux_spec (score : AssemblyTemplateSlot M → InstancePayload M → Option ℚ)
    (anchor : InstancePayload M) :
    ∀ (slots : List (AssemblyTemplateSlot M)) (avail : Avail M)
      (acc ms : List (ℕ × InstancePayload M)) (avOut : Avail M),
      matchAnchorAux score anchor slots avail acc = (some ms, avOut) →
      ∃ tail, ms = acc ++ tail ∧
        List.Forall₂ (fun slot (pr : ℕ × InstancePayload M) =>
          pr.1 = slot.slot_id ∧ (slot.is_root = true → pr.2 = anchor) ∧
            (slot.is_root = false → pr.2 ∈ flattenAvail avail)) slots tail ∧
        List.Perm (flattenAvail avail) (nonRootPayloads slots tail ++ flattenAvail avOut) := by
  intro slots
  induction slots with
  | nil =>
    intro avail acc ms avOut h
    simp only [matchAnchorAux, Prod.mk.injEq, Option.some.injEq] at h
    obtain ⟨rfl, rfl⟩ := h
    exact ⟨[], by simp, List.Forall₂.nil, by simp [nonRootPayloads]⟩
  | cons slot rest ih =>
    intro avail acc ms avOut h
    by_cases hroot : slot.is_root
    · rw [matchAnchorAux, if_pos hroot] at h
      obtain ⟨tail', rfl, hfa, hperm⟩ := ih avail (acc ++ [(slot.slot_id, anchor)]) ms avOut h
      refine ⟨(slot.slot_id, anchor) :: tail', by simp, ?_, ?_⟩
      · exact List.Forall₂.cons
          ⟨rfl, fun _ => rfl, fun hc => absurd hroot (by simp [hc])⟩ hfa
      · simpa [nonRootPayloads, hroot] using hperm
    · rw [matchAnchorAux, if_neg hroot] at h
      rcases hpb : pickBest (score slot) (lookupAvail avail slot.signature) with _ | ⟨i, p, sc⟩
      · simp only [hpb] at h
        exact absurd (congrArg Prod.fst h) (by simp)
      · simp only [hpb] at h
        obtain ⟨hget, hscore, hmin⟩ := pickBest_spec _ _ _ _ _ hpb
        have hbucket : List.Perm (lookupAvail avail slot.signature)
            (p :: (lookupAvail avail slot.signature).eraseIdx i) :=
          get?_eraseIdx_perm _ i p hget
        have hextract :
            List.Perm (flattenAvail avail)
              (p :: flattenAvail (setAvail avail slot.signature
                ((lookupAvail avail slot.signature).eraseIdx i))) :=
          setAvail_extract_perm avail slot.signature p _ hbucket
        obtain ⟨tail', rfl, hfa, hperm⟩ := ih _ (acc ++ [(slot.slot_id, p)]) ms avOut h
        have hsub : ∀ x, x ∈ flattenAvail (setAvail avail slot.signature
            ((lookupAvail avail slot.signature).eraseIdx i)) → x ∈ flattenAvail avail := by
          intro x hx
          exact hextract.mem_iff.mpr (List.mem_cons_of_mem p hx)
        refine ⟨(slot.slot_id, p) :: tail', by simp, ?_, ?_⟩
        · refine List.Forall₂.cons ⟨rfl, fun hc => absurd hc (by simp [hroot]), fun _ => ?_⟩
            (hfa.imp ?_)
          · exact lookupAvail_subset avail slot.signature p (List.get?_mem hget)
          · rintro a b ⟨hb1, hb2, hb3⟩
            exact ⟨hb1, hb2, fun hc => hsub b.2 (hb3 hc)⟩
        · have : List.Perm (flattenAvail avail)
              (p :: (nonRootPayloads rest tail' ++ flattenAvail avOut)) :=
            hextract.trans (hperm.cons p)
          have hbe : slot.is_root = false := by simpa using hroot
          simpa [nonRootPayloads, hbe] using this

theorem matchAssemblyAux_spec [DecidableEq M]
    (score : AssemblyTemplateSlot M → InstancePayload M → Option ℚ) :
    ∀ (slots : List (AssemblyTemplateSlot M)) (avail : Avail M)
      (acc ms : List (ℕ × InstancePayload M)),
      matchAssemblyAux score slots avail acc = some ms →
      ∃ tail avOut, ms = acc ++ tail ∧
        List.Forall₂ (fun slot (pr : ℕ × InstancePayload M) =>
          pr.1 = slot.slot_id ∧ pr.2 ∈ flattenAvail avail) slots tail ∧
        List.Perm (flattenAvail avail) (tail.map Prod.snd ++ flattenAvail avOut) := by
  intro slots
  induction slots with
  | nil =>
    intro avail acc ms h
    simp only [matchAssemblyAux, Option.some.injEq] at h
    subst h
    exact ⟨[], avail, by simp, List.Forall₂.nil, by simp⟩
  | cons slot rest ih =>
    intro avail acc ms h
    rcases hpb : pickBest (score slot) (lookupAvail avail slot.signature) with _ | ⟨i, p, sc⟩
    · rw [matchAssemblyAux] at h
      simp only [hpb] at h
      exact Option.noConfusion h
    · rw [matchAssemblyAux] at h
      simp only [hpb] at h
      obtain ⟨hget, hscore, hmin⟩ := pickBest_spec _ _ _ _ _ hpb
      have hmem : p ∈ lookupAvail avail slot.signature := List.get?_mem hget
      have hbucket : List.Perm (lookupAvail avail slot.signature)
          (p :: (lookupAvail avail slot.signature).erase p) :=
        List.perm_cons_erase hmem
      have hextract := setAvail_extract_perm avail slot.signature p _ hbucket
      obtain ⟨tail', avOut, rfl, hfa, hperm⟩ := ih _ (acc ++ [(slot.slot_id, p)]) ms h
      have hsub : ∀ x, x ∈ flattenAvail (setAvail avail slot.signature
          ((lookupAvail avail slot.signature).erase p)) → x ∈ flattenAvail avail := by
        intro x hx
        exact hextract.mem_iff.mpr (List.mem_cons_of_mem p hx)
      refine ⟨(slot.slot_id, p) :: tail', avOut, by simp, ?_, ?_⟩
      · refine List.Forall₂.cons ⟨rfl, lookupAvail_subset avail slot.signature p hmem⟩
          (hfa.imp ?_)
        rintro a b ⟨hb1, hb2⟩
        exact ⟨hb1, hsub b.2 hb2⟩
      · exact hextract.trans (hperm.cons p)

theorem length_le_one_nodup (l : List α) (h : l.length ≤ 1) : l.Nodup := by
  cases l with
  | nil => exact List.nodup_nil
  | cons a t =>
    cases t with
    | nil => simp
    | cons b u => simp at h

theorem rootPayloads_all (anchor : InstancePayload M)
    {R : AssemblyTemplateSlot M → ℕ × InstancePayload M → Prop}
    (hR : ∀ slot pr, R slot pr → slot.is_root = true → pr.2 = anchor)
    {slots : List (AssemblyTemplateSlot M)} {tail : List (ℕ × InstancePayload M)}
    (h : List.Forall₂ R slots tail) :
    ∀ x ∈ rootPayloads slots tail, x = anchor := by
  induction h with
  | nil => simp [rootPayloads]
  | @cons slot pr srest prest hrel _ ih =>
    intro x hx
    by_cases hroot : slot.is_root
    · simp only [rootPayloads, if_pos hroot] at hx
      rcases List.mem_cons.mp hx with rfl | hx
      · exact hR _ _ hrel hroot
      · exact ih x hx
    · simp only [rootPayloads, if_neg hroot] at hx
      exact ih x hx

theorem rootPayloads_length (slots : List (AssemblyTemplateSlot M)) :
    ∀ tail : List (ℕ × InstancePayload M), tail.length = slots.length →
      (rootPayloads slots tail).length =
        (slots.filter (fun s => s.is_root)).length := by
  induction slots with
  | nil =>
    intro tail hlen
    rw [List.length_eq_zero.mp hlen]
    simp [rootPayloads]
  | cons slot srest ih =>
    intro tail hlen
    cases tail with
    | nil => simp at hlen
    | cons pr prest =>
      simp only [List.length_cons, Nat.succ.injEq] at hlen
      by_cases hroot : slot.is_root
      · simp [rootPayloads, hroot, List.filter_cons, ih prest hlen]
      · simp [rootPayloads, hroot, List.filter_cons, ih prest hlen]

theorem nonRootPayloads_subset (slots : List (AssemblyTemplateSlot M)) :
    ∀ tail : List (ℕ × InstancePayload M),
      ∀ x ∈ nonRootPayloads slots tail, x ∈ tail.map Prod.snd := by
  induction slots with
  | nil => intro tail x hx; simp [nonRootPayloads] at hx
  | cons slot srest ih =>
    intro tail x hx
    cases tail with
    | nil => simp [nonRootPayloads] at hx
    | cons pr prest =>
      by_cases hroot : slot.is_root
      · simp only [nonRootPayloads, if_pos hroot] at hx
        exact List.mem_cons_of_mem _ (ih prest x hx)
      · simp only [nonRootPayloads, if_neg hroot] at hx
        rcases List.mem_cons.mp hx with rfl | hx
        · simp
        · exact List.mem_cons_of_mem _ (ih prest x hx)

theorem forall2_mem_right {R : α → β → Prop} {l1 : List α} {l2 : List β}
    (h : List.Forall₂ R l1 l2) : ∀ b ∈ l2, ∃ a ∈ l1, R a b := by
  induction h with
  | nil => simp
  | @cons a b as bs hrel _ ih =>
    intro x hx
    rcases List.mem_cons.mp hx with rfl | hx
    · exact ⟨a, List.mem_cons_self a as, hrel⟩
    · obtain ⟨a', ha', hr'⟩ := ih x hx
      exact ⟨a', List.mem_cons_of_mem a ha', hr'⟩

theorem flatten_addKeyed_perm (av : Avail M) (k : CompSig) (p : InstancePayload M) :
    List.Perm (flattenAvail (addKeyed av k p)) (flattenAvail av ++ [p]) := by
  induction av with
  | nil => simp [addKeyed]
  | cons kv rest ih =>
    obtain ⟨k0, v⟩ := kv
    by_cases hk : k0 = k
    · subst hk
      simp only [addKeyed, reduceIte, flattenAvail_cons]
      rw [List.append_assoc, List.append_assoc]
      exact List.Perm.append_left v (List.perm_append_comm.trans (List.Perm.refl _)).symm.symm
    · simp only [addKeyed, if_neg hk, flattenAvail_cons]
      rw [List.append_assoc]
      exact List.Perm.append_left v ih

theorem flatten_buildAvail_perm (comps : List (InstancePayload M)) :
    List.Perm (flattenAvail (buildAvailOfComponents comps)) comps := by
  have haux : ∀ (cs : List (InstancePayload M)) (av : Avail M),
      List.Perm
        (flattenAvail (cs.foldl (fun a q => addKeyed a (componentSignature q) q) av))
        (flattenAvail av ++ cs) := by
    intro cs
    induction cs with
    | nil => intro av; simp
    | cons c rest ih =>
      intro av
      have h1 := ih (addKeyed av (componentSignature c) c)
      have h2 : List.Perm (flattenAvail (addKeyed av (componentSignature c) c) ++ rest)
          ((flattenAvail av ++ [c]) ++ rest) :=
        (flatten_addKeyed_perm av (componentSignature c) c).append_right rest
      simpa using h1.trans h2
  simpa [buildAvailOfComponents] using haux comps []

theorem mem_flatten_sortBuckets (av : Avail M)
    (le : InstancePayload M → InstancePayload M → Bool) (x : InstancePayload M) :
    x ∈ flattenAvail (av.map (fun kv => (kv.1, sortByB le kv.2))) ↔ x ∈ flattenAvail av := by
  induction av with
  | nil => simp
  | cons kv rest ih =>
    obtain ⟨k, v⟩ := kv
    simp only [List.map_cons, flattenAvail_cons, List.mem_append, mem_sortByB, ih]

theorem buildAnchorAvailability_excludes
    (consumed anchors components : List (InstancePayload M)) :
    ∀ p ∈ flattenAvail (buildAnchorAvailability consumed anchors components),
      p.transform ∉ anchors.map InstancePayload.transform ∧
        p.transform ∉ consumed.map InstancePayload.transform := by
  have haux : ∀ (cs : List (InstancePayload M)) (av : Avail M),
      (∀ q ∈ flattenAvail av,
        q.transform ∉ anchors.map InstancePayload.transform ∧
          q.transform ∉ consumed.map InstancePayload.transform) →
      ∀ q ∈ flattenAvail (cs.foldl
        (fun a c =>
          if c.transform ∈ consumed.map InstancePayload.transform then a
          else if c.transform ∈ anchors.map InstancePayload.transform then a
          else addKeyed a (componentSignature c) c) av),
        q.transform ∉ anchors.map InstancePayload.transform ∧
          q.transform ∉ consumed.map InstancePayload.transform := by
    intro cs
    induction cs with
    | nil => intro av hav; exact hav
    | cons c rest ih =>
      intro av hav
      simp only [List.foldl_cons]
      by_cases hc1 : c.transform ∈ consumed.map InstancePayload.transform
      · rw [if_pos hc1]
        exact ih av hav
      · rw [if_neg hc1]
        by_cases hc2 : c.transform ∈ anchors.map InstancePayload.transform
        · rw [if_pos hc2]
          exact ih av hav
        · rw [if_neg hc2]
          refine ih (addKeyed av (componentSignature c) c) ?_
          intro q hq
          have := (flatten_addKeyed_perm av (componentSignature c) c).subset hq
          rcases List.mem_append.mp this with hq' | hq'
          · exact hav q hq'
          · rcases List.mem_singleton.mp hq' with rfl
            exact ⟨hc2, hc1⟩
  intro p hp
  simp only [buildAnchorAvailability] at hp
  rw [mem_flatten_sortBuckets] at hp
  exact haux components [] (by simp) p hp

/-- C2: the per-anchor template matcher gates candidates by translation and
wrapped-rotation tolerances, scores eligible candidates by
`translationDelta + rotationDelta / rotationTolerance` (for
`rotationTolerance ≥ 0.001`), assigns a lowest-scoring eligible candidate,
removes the winner from the shared availability pool (so neither a later
slot nor a later anchor can reuse it), and yields no assignment at all when
some slot has no eligible candidate. -/
theorem per_anchor_matching_spec (cfg : Config) (env : GeomOps M)
    (h : (1 : ℚ) / 1000 ≤ cfg.template_rotation_tolerance) :
    PerAnchorMatchingContract cfg env := by
  have hmax : maxQ cfg.template_rotation_tolerance (1 / 1000) =
      cfg.template_rotation_tolerance := by
    unfold maxQ
    split
    · exact le_antisymm h (by assumption)
    · rfl
  refine ⟨?_, ?_, ?_, ?_⟩
  · intro cand ref sc
    simp only [matrixDifferenceScore, translationWithinTolerance, rotationWithinTolerance,
      hmax]
    by_cases h1 : env.dist (env.decompose cand).1 (env.decompose ref).1 ≤
        cfg.template_position_tolerance
    · by_cases h2 : maxQ (maxQ
          (absQ (angleDelta (env.decompose cand).2.1.1 (env.decompose ref).2.1.1))
          (absQ (angleDelta (env.decompose cand).2.1.2.1 (env.decompose ref).2.1.2.1)))
          (absQ (angleDelta (env.decompose cand).2.1.2.2 (env.decompose ref).2.1.2.2)) ≤
          cfg.template_rotation_tolerance
      · simp [h1, h2, eq_comm]
      · simp [h1, h2]
    · simp [h1]
  · intro anchor slot rest avail acc ms avOut hroot hm
    rw [matchAnchorAux, if_neg (by simp [hroot])] at hm
    rcases hpb : pickBest (slotScore cfg env anchor slot) (lookupAvail avail slot.signature)
      with _ | ⟨i, p, sc⟩
    · simp only [hpb] at hm
      exact absurd (congrArg Prod.fst hm) (by simp)
    · simp only [hpb] at hm
      obtain ⟨hget, hscore, hmin⟩ := pickBest_spec _ _ _ _ _ hpb
      refine ⟨i, p, sc, rfl, hscore, hmin, ?_, hm⟩
      obtain ⟨tail, htail, -, -⟩ := matchAnchorAux_spec _ _ rest _ _ ms avOut hm
      rw [htail, List.append_assoc]
      rw [List.get?_append_right (le_refl acc.length)]
      simp
  · intro anchor slot rest avail acc hroot hnone
    rw [matchAnchorAux, if_neg (by simp [hroot])]
    have hpb : pickBest (slotScore cfg env anchor slot) (lookupAvail avail slot.signature) =
        none := (pickBest_none_iff _ _).mpr hnone
    simp only [hpb]
  · intro anchor slots avail ms avOut hnd hm
    obtain ⟨tl, htail, hfa, hperm⟩ :=
      matchAnchorAux_spec (slotScore cfg env anchor) anchor slots avail [] ms avOut hm
    simp only [List.nil_append] at htail
    rw [← htail] at hfa hperm
    have hnd2 : (nonRootPayloads slots ms ++ flattenAvail avOut).Nodup :=
      hperm.nodup_iff.mp hnd
    rw [List.nodup_append] at hnd2
    obtain ⟨hnr, hout, hdisj⟩ := hnd2
    refine ⟨hnr, ?_, ?_⟩
    · intro p hp
      refine ⟨hperm.symm.subset (List.mem_append_left _ hp), fun hc => hdisj hp hc⟩
    · intro pr hpr
      obtain ⟨slot, hslot, hR⟩ := forall2_mem_right hfa pr hpr
      by_cases hroot : slot.is_root
      · exact Or.inl (hR.2.1 hroot)
      · exact Or.inr (hR.2.2 (by simp [hroot]))

/-- Witness for C2 at the default configuration (rotation tolerance 5)
over trivial matrix operations. -/
theorem per_anchor_matching_spec_witness :
    (1 : ℚ) / 1000 ≤ ({} : Config).template_rotation_tolerance ∧
      PerAnchorMatchingContract ({} : Config) trivialOps :=
  ⟨by show (1 : ℚ) / 1000 ≤ 5; norm_num,
    per_anchor_matching_spec ({} : Config) trivialOps (by show (1 : ℚ) / 1000 ≤ 5; norm_num)⟩

/-- C5: a successful template-slot match (per-anchor or per-assembly) maps
each slot to exactly one payload, slot ids are covered in order, and no
payload is assigned to two different slots of the same descriptor. -/
theorem template_match_bijection_thm [DecidableEq M] (cfg : Config) (env : GeomOps M) :
    TemplateMatchBijection cfg env := by
  constructor
  · intro anchor slots avail ms avOut hids hroots hnd hanchor hm
    obtain ⟨tl, htail, hfa, hperm⟩ :=
      matchAnchorAux_spec (slotScore cfg env anchor) anchor slots avail [] ms avOut hm
    simp only [List.nil_append] at htail
    rw [← htail] at hfa hperm
    have hlen : ms.length = slots.length := hfa.length_eq.symm
    have hfst : ms.map Prod.fst = slots.map AssemblyTemplateSlot.slot_id :=
      forall2_map_fst (fun _ _ hr => hr.1) hfa
    refine ⟨hfst, by rw [hfst]; exact hids, ?_⟩
    have hsplit := map_snd_perm_root_nonroot slots ms hlen
    have hnd2 : (nonRootPayloads slots ms ++ flattenAvail avOut).Nodup :=
      hperm.nodup_iff.mp hnd
    rw [List.nodup_append] at hnd2
    obtain ⟨hnr, -, -⟩ := hnd2
    have hrootsall : ∀ x ∈ rootPayloads slots ms, x = anchor :=
      rootPayloads_all anchor (fun _ _ hr => hr.2.1) hfa
    have hrootnd : (rootPayloads slots ms).Nodup := by
      refine length_le_one_nodup _ ?_
      rw [rootPayloads_length slots ms hlen]
      exact hroots
    have hnrsub : ∀ x ∈ nonRootPayloads slots ms, x ∈ flattenAvail avail := by
      intro x hx
      exact hperm.symm.subset (List.mem_append_left _ hx)
    have hdisj : List.Disjoint (rootPayloads slots ms) (nonRootPayloads slots ms) := by
      intro a ha hb
      rw [hrootsall a ha] at hb
      exact hanchor (hnrsub _ hb)
    have hcat : (rootPayloads slots ms ++ nonRootPayloads slots ms).Nodup :=
      List.nodup_append.mpr ⟨hrootnd, hnr, hdisj⟩
    exact hsplit.nodup_iff.mpr hcat
  · intro descriptor slots ms hids hcomps hm
    rw [matchAssemblyToTemplate] at hm
    obtain ⟨tl, avOut, htail, hfa, hperm⟩ := matchAssemblyAux_spec _ slots _ [] ms hm
    simp only [List.nil_append] at htail
    rw [← htail] at hfa hperm
    have hfst : ms.map Prod.fst = slots.map AssemblyTemplateSlot.slot_id :=
      forall2_map_fst (fun _ _ hr => hr.1) hfa
    refine ⟨hfst, by rw [hfst]; exact hids, ?_⟩
    have hndflat : (flattenAvail (buildAvailOfComponents descriptor.components)).Nodup :=
      (flatten_buildAvail_perm descriptor.components).nodup_iff.mpr hcomps
    have hnd2 := hperm.nodup_iff.mp hndflat
    rw [List.nodup_append] at hnd2
    exact hnd2.1

/-- Witness for C5: a one-root-slot template matched against an empty pool
assigns the anchor to the root slot, a bijection. -/
theorem template_match_bijection_witness :
    [((0 : ℕ), cexPayloadA)].map Prod.fst = [slotW].map AssemblyTemplateSlot.slot_id ∧
      ([((0 : ℕ), cexPayloadA)].map Prod.fst).Nodup ∧
      ([((0 : ℕ), cexPayloadA)].map Prod.snd).Nodup :=
  (template_match_bijection_thm ({} : Config) trivialOps).1 cexPayloadA [slotW] []
    [((0 : ℕ), cexPayloadA)] [] (by simp) (by simp [slotW]) (by simp) (by simp) rfl

/-- C10: whenever per-anchor matching succeeds over an availability pool
built by `_build_anchor_availability`, every non-root slot is filled by a
payload that is neither an anchor nor a template-consumed component, and
every root slot holds the anchor itself. -/
theorem anchor_pool_exclusion (cfg : Config) (env : GeomOps M)
    (consumed anchors components : List (InstancePayload M))
    (anchor : InstancePayload M) (slots : List (AssemblyTemplateSlot M))
    (ms : List (ℕ × InstancePayload M)) (avOut : Avail M)
    (hm : matchAnchorToTemplateSlots cfg env anchor slots
      (buildAnchorAvailability consumed anchors components) = (some ms, avOut)) :
    List.Forall₂ (fun slot (pr : ℕ × InstancePayload M) =>
      pr.1 = slot.slot_id ∧ (slot.is_root = true → pr.2 = anchor) ∧
        (slot.is_root = false →
          pr.2.transform ∉ anchors.map InstancePayload.transform ∧
            pr.2.transform ∉ consumed.map InstancePayload.transform)) slots ms := by
  obtain ⟨tl, htail, hfa, hperm⟩ := matchAnchorAux_spec _ _ slots _ [] ms avOut hm
  simp only [List.nil_append] at htail
  rw [← htail] at hfa
  refine hfa.imp ?_
  rintro slot pr ⟨h1, h2, h3⟩
  exact ⟨h1, h2, fun hc =>
    buildAnchorAvailability_excludes consumed anchors components pr.2 (h3 hc)⟩

/-- Witness for C10 at a concrete one-root-slot template. -/
theorem anchor_pool_exclusion_witness :
    List.Forall₂ (fun slot (pr : ℕ × InstancePayload Unit) =>
      pr.1 = slot.slot_id ∧ (slot.is_root = true → pr.2 = cexPayloadA) ∧
        (slot.is_root = false →
          pr.2.transform ∉ ([] : List (InstancePayload Unit)).map InstancePayload.transform ∧
            pr.2.transform ∉
              ([] : List (InstancePayload Unit)).map InstancePayload.transform))
      [slotW] [((0 : ℕ), cexPayloadA)] :=
  anchor_pool_exclusion ({} : Config) trivialOps [] [] [] cexPayloadA [slotW]
    [((0 : ℕ), cexPayloadA)] (buildAnchorAvailability [] [] []) rfl

@[simp] theorem joinedPayloads_nil : joinedPayloads ([] : List (InstanceGroup M)) = [] := rfl

@[simp] theorem joinedPayloads_cons (g : InstanceGroup M) (gs : List (InstanceGroup M)) :
    joinedPayloads (g :: gs) = g.allPayloads ++ joinedPayloads gs := rfl

theorem addPayload_not_match (cfg : Config) (g : InstanceGroup M)
    (rest : List (InstanceGroup M)) (p : InstancePayload M)
    (h : groupAccepts cfg p g = false) :
    addPayloadToGroups cfg (g :: rest) p = g :: addPayloadToGroups cfg rest p := by
  unfold addPayloadToGroups
  rw [matchGroupIdx, if_neg (by simp [h])]
  cases hr : matchGroupIdx cfg p rest with
  | none => simp
  | some i => simp [appendMemberAt]

theorem joined_addPayload (cfg : Config) (p : InstancePayload M) :
    ∀ groups : List (InstanceGroup M),
      List.Perm (joinedPayloads (addPayloadToGroups cfg groups p))
        (p :: joinedPayloads groups) := by
  intro groups
  induction groups with
  | nil =>
    simp [addPayloadToGroups, matchGroupIdx, InstanceGroup.allPayloads]
  | cons g rest ih =>
    by_cases hacc : groupAccepts cfg p g = true
    · unfold addPayloadToGroups
      rw [matchGroupIdx, if_pos hacc]
      show List.Perm (joinedPayloads (⟨g.prototype, g.members ++ [p]⟩ :: rest))
        (p :: joinedPayloads (g :: rest))
      simp only [joinedPayloads_cons, InstanceGroup.allPayloads, List.cons_append,
        List.append_assoc]
      exact (List.perm_middle.cons g.prototype).trans (List.Perm.swap p g.prototype _)
    · rw [addPayload_not_match cfg g rest p (by simpa using hacc)]
      simp only [joinedPayloads_cons]
      exact (List.Perm.append_left g.allPayloads ih).trans List.perm_middle

theorem groupPayloads_perm (cfg : Config) (payloads : List (InstancePayload M)) :
    List.Perm (joinedPayloads (groupPayloads cfg payloads)) payloads := by
  have haux : ∀ (ps : List (InstancePayload M)) (groups : List (InstanceGroup M)),
      List.Perm (joinedPayloads (ps.foldl (addPayloadToGroups cfg) groups))
        (joinedPayloads groups ++ ps) := by
    intro ps
    induction ps with
    | nil => intro groups; simp
    | cons p rest ih =>
      intro groups
      have h1 := ih (addPayloadToGroups cfg groups p)
      have h2 : List.Perm (joinedPayloads (addPayloadToGroups cfg groups p) ++ rest)
          ((p :: joinedPayloads groups) ++ rest) :=
        (joined_addPayload cfg p groups).append_right rest
      have h3 : List.Perm ((p :: joinedPayloads groups) ++ rest)
          (joinedPayloads groups ++ p :: rest) := by
        simpa using (@List.perm_middle _ p (joinedPayloads groups) rest).symm
      exact (h1.trans h2).trans h3
  simpa [groupPayloads] using haux payloads []

theorem matchGroupIdx_none_iff (cfg : Config) (p : InstancePayload M) :
    ∀ groups : List (InstanceGroup M),
      matchGroupIdx cfg p groups = none ↔ ∀ g ∈ groups, groupAccepts cfg p g = false := by
  intro groups
  induction groups with
  | nil => simp [matchGroupIdx]
  | cons g rest ih =>
    by_cases hacc : groupAccepts cfg p g = true
    · simp [matchGroupIdx, hacc]
    · rw [matchGroupIdx, if_neg hacc, Option.map_eq_none', ih]
      constructor
      · intro h x hx
        rcases List.mem_cons.mp hx with rfl | hx
        · simpa using hacc
        · exact h x hx
      · intro h x hx
        exact h x (List.mem_cons_of_mem g hx)

theorem matchGroupIdx_some_spec (cfg : Config) (p : InstancePayload M) :
    ∀ (groups : List (InstanceGroup M)) (i : ℕ),
      matchGroupIdx cfg p groups = some i →
      ∃ g, groups.get? i = some g ∧ groupAccepts cfg p g = true ∧
        ∀ j, j < i → ∀ g', groups.get? j = some g' → groupAccepts cfg p g' = false := by
  intro groups
  induction groups with
  | nil => intro i h; exact Option.noConfusion h
  | cons g rest ih =>
    intro i h
    by_cases hacc : groupAccepts cfg p g = true
    · rw [matchGroupIdx, if_pos hacc] at h
      cases h
      exact ⟨g, rfl, hacc, fun j hj => absurd hj (Nat.not_lt_zero j)⟩
    · rw [matchGroupIdx, if_neg hacc] at h
      rcases Option.map_eq_some'.mp h with ⟨i', hi', rfl⟩
      obtain ⟨g', hget, hg', hmin⟩ := ih i' hi'
      refine ⟨g', by simpa using hget, hg', ?_⟩
      intro j hj x hx
      cases j with
      | zero =>
        simp only [List.get?] at hx
        cases hx
        simpa using hacc
      | succ j' =>
        simp only [List.get?] at hx
        exact hmin j' (by omega) x hx

theorem matchGroup_eq_idx (cfg : Config) (p : InstancePayload M) :
    ∀ groups : List (InstanceGroup M),
      matchGroup cfg p groups = (matchGroupIdx cfg p groups).bind (fun i => groups.get? i) := by
  intro groups
  induction groups with
  | nil => rfl
  | cons g rest ih =>
    by_cases hacc : groupAccepts cfg p g = true
    · simp [matchGroup, matchGroupIdx, List.find?, hacc]
    · have hacc' : groupAccepts cfg p g = false := by simpa using hacc
      rw [matchGroupIdx, if_neg hacc]
      rw [show matchGroup cfg p (g :: rest) = matchGroup cfg p rest by
        simp [matchGroup, List.find?, hacc']]
      rw [ih]
      cases matchGroupIdx cfg p rest with
      | none => rfl
      | some i => simp

/-- C3: `_group_payloads` partitions its input: the concatenation of every
group's `[prototype] + members` is a permutation of the payload list (so
with distinct inputs each payload lands in exactly one group), and a
payload joins the first group in creation order whose prototype passes the
materials gate and the geometry gate, becoming a new trailing prototype
when no group accepts it. -/
theorem grouping_partitions (cfg : Config) (payloads : List (InstancePayload M)) :
    List.Perm (joinedPayloads (groupPayloads cfg payloads)) payloads ∧
      (∀ (p : InstancePayload M) (groups : List (InstanceGroup M)),
        matchGroup cfg p groups =
          (matchGroupIdx cfg p groups).bind (fun i => groups.get? i)) ∧
      (∀ (p : InstancePayload M) (groups : List (InstanceGroup M)),
        (matchGroupIdx cfg p groups = none ↔
          ∀ g ∈ groups, groupAccepts cfg p g = false) ∧
        (matchGroupIdx cfg p groups = none →
          addPayloadToGroups cfg groups p = groups ++ [⟨p, []⟩]) ∧
        (∀ i, matchGroupIdx cfg p groups = some i →
          addPayloadToGroups cfg groups p = appendMemberAt groups i p ∧
          ∃ g, groups.get? i = some g ∧ groupAccepts cfg p g = true ∧
            ∀ j, j < i → ∀ g', groups.get? j = some g' →
              groupAccepts cfg p g' = false)) := by
  refine ⟨groupPayloads_perm cfg payloads, matchGroup_eq_idx cfg, ?_⟩
  intro p groups
  refine ⟨matchGroupIdx_none_iff cfg p groups, ?_, ?_⟩
  · intro h
    simp [addPayloadToGroups, h]
  · intro i h
    refine ⟨by simp [addPayloadToGroups, h], matchGroupIdx_some_spec cfg p groups i h⟩

/-- Witness for C3 at a concrete two-payload input. -/
theorem grouping_partitions_witness :
    List.Perm (joinedPayloads (groupPayloads {} [cexPayloadA, cexPayloadB]))
      [cexPayloadA, cexPayloadB] :=
  (grouping_partitions ({} : Config) [cexPayloadA, cexPayloadB]).1

theorem sortByB_length (le : α → α → Bool) (l : List α) :
    (sortByB le l).length = l.length := (sortByB_perm le l).length_eq

/-- C4 (counterexample): with a degenerate anchor bounding box and a
coincident neighbour, the source clamps the scale radius to `1.0`
(`max(longest_axis * multiplier, 1.0)`, line 653) and returns `1`, while
the claimed formula `max(longestBBoxAxis * multiplier, neighborRadius)`
returns `1/10`. -/
theorem capture_radius_cex :
    anchorCaptureRadius ({} : Config) cexOps cexAnchor [cexAnchor, cexNeighbor] 2 = 1 ∧
      specCaptureRadius ({} : Config) cexOps cexAnchor [cexAnchor, cexNeighbor] 2 =
        1 / 10 ∧ (1 : ℚ) ≠ 1 / 10 := by
  have hfil : [cexAnchor, cexNeighbor].filter (fun p => p ≠ cexAnchor) = [cexNeighbor] := by
    decide
  have hnr : neighborRadius ({} : Config) cexOps cexAnchor [cexAnchor, cexNeighbor] 2 =
      1 / 10 := by
    rw [neighborRadius, if_neg (by norm_num)]
    rw [hfil]
    norm_num [payloadDistance, cexOps, taxiDist, cexAnchor, cexNeighbor, absQ, sortByB,
      orderedInsertB]
  refine ⟨?_, ?_, by norm_num⟩
  · rw [anchorCaptureRadius, hnr]
    norm_num [cexAnchor, maxQ]
  · rw [specCaptureRadius, hnr]
    norm_num [cexAnchor, maxQ]

/-- C4 (amended): for a positive anchor count and at least one other
component, the capture radius is
`max(max(longestBBoxAxis * anchorCaptureMultiplier, 1.0), neighborRadius)`
— the claimed formula plus the source's `1.0` floor on the scale radius —
where `neighborRadius` is the sorted distance to the other components at
index `min(otherCount - 1, k - 1)` (`k = max(ceil(bucketSize / anchorCount),
1)`), plus the template position tolerance. -/
theorem capture_radius_amended [DecidableEq M] (cfg : Config) (env : GeomOps M)
    (anchor : InstancePayload M) (components : List (InstancePayload M))
    (assembly_count : ℕ) (h1 : 0 < assembly_count)
    (h2 : components.filter (fun p => p ≠ anchor) ≠ []) :
    anchorCaptureRadius cfg env anchor components assembly_count =
      maxQ
        (maxQ (maxQ (maxQ anchor.bbox_size.1 anchor.bbox_size.2.1) anchor.bbox_size.2.2 *
          cfg.anchor_capture_multiplier) 1)
        ((sortByB (fun a b => decide (a ≤ b))
            ((components.filter (fun p => p ≠ anchor)).map (payloadDistance env anchor))).getD
          (min ((components.filter (fun p => p ≠ anchor)).length - 1)
            (max ((components.length + max assembly_count 1 - 1) / max assembly_count 1) 1 - 1))
          0 + cfg.template_position_tolerance) := by
  rw [anchorCaptureRadius, neighborRadius, if_neg (by omega)]
  have hne : ((components.filter (fun p => p ≠ anchor)).map
      (payloadDistance env anchor)).isEmpty = false := by
    cases hq : components.filter (fun p => p ≠ anchor) with
    | nil => exact absurd hq h2
    | cons a t => simp [hq]
  rw [if_neg (by rw [hne]; simp)]
  simp only [sortByB_length, List.length_map]

/-- Witness for the amended C4 at the concrete degenerate-anchor scene. -/
theorem capture_radius_amended_witness :
    0 < 2 ∧ [cexAnchor, cexNeighbor].filter (fun p => p ≠ cexAnchor) ≠ [] ∧
      anchorCaptureRadius ({} : Config) cexOps cexAnchor [cexAnchor, cexNeighbor] 2 =
        maxQ
          (maxQ (maxQ (maxQ cexAnchor.bbox_size.1 cexAnchor.bbox_size.2.1)
            cexAnchor.bbox_size.2.2 * ({} : Config).anchor_capture_multiplier) 1)
          ((sortByB (fun a b => decide (a ≤ b))
              (([cexAnchor, cexNeighbor].filter (fun p => p ≠ cexAnchor)).map
                (payloadDistance cexOps cexAnchor))).getD
            (min (([cexAnchor, cexNeighbor].filter (fun p => p ≠ cexAnchor)).length - 1)
              (max (([cexAnchor, cexNeighbor].length + max 2 1 - 1) / max 2 1) 1 - 1))
            0 + ({} : Config).template_position_tolerance) :=
  ⟨by norm_num, by decide,
    capture_radius_amended ({} : Config) cexOps cexAnchor [cexAnchor, cexNeighbor] 2
      (by norm_num) (by decide)⟩

@[simp] theorem keyedFlatten_nil : keyedFlatten ([] : List (κ × List α)) = [] := rfl

@[simp] theorem keyedFlatten_cons (kv : κ × List α) (rest : List (κ × List α)) :
    keyedFlatten (kv :: rest) = kv.2 ++ keyedFlatten rest := rfl

theorem keyedFlatten_addKeyed [DecidableEq κ] (bs : List (κ × List α)) (k : κ) (a : α) :
    List.Perm (keyedFlatten (addKeyed bs k a)) (keyedFlatten bs ++ [a]) := by
  induction bs with
  | nil => simp [addKeyed]
  | cons kv rest ih =>
    obtain ⟨k0, v⟩ := kv
    by_cases hk : k0 = k
    · subst hk
      simp only [addKeyed, reduceIte, keyedFlatten_cons]
      rw [List.append_assoc, List.append_assoc]
      exact List.Perm.append_left v List.perm_append_comm
    · simp only [addKeyed, if_neg hk, keyedFlatten_cons]
      rw [List.append_assoc]
      exact List.Perm.append_left v ih

theorem mem_keyedFlatten_of_mem [DecidableEq κ] (bs : List (κ × List α)) (kv : κ × List α)
    (hkv : kv ∈ bs) : ∀ x ∈ kv.2, x ∈ keyedFlatten bs := by
  induction bs with
  | nil => simp at hkv
  | cons kv0 rest ih =>
    intro x hx
    rcases List.mem_cons.mp hkv with rfl | hkv'
    · simp only [keyedFlatten_cons, List.mem_append]
      exact Or.inl hx
    · simp only [keyedFlatten_cons, List.mem_append]
      exact Or.inr (ih hkv' x hx)

theorem addKeyed_nonempty [DecidableEq κ] (bs : List (κ × List α)) (k : κ) (a : α)
    (h : ∀ kv ∈ bs, kv.2 ≠ []) : ∀ kv ∈ addKeyed bs k a, kv.2 ≠ [] := by
  induction bs with
  | nil =>
    intro kv hkv
    simp only [addKeyed, List.mem_singleton] at hkv
    rw [hkv]
    simp
  | cons kv0 rest ih =>
    obtain ⟨k0, v⟩ := kv0
    intro kv hkv
    by_cases hk : k0 = k
    · subst hk
      simp only [addKeyed, reduceIte] at hkv
      rcases List.mem_cons.mp hkv with h1 | hkv'
      · rw [h1]
        simp
      · exact h kv (List.mem_cons_of_mem _ hkv')
    · simp only [addKeyed, if_neg hk] at hkv
      rcases List.mem_cons.mp hkv with h1 | hkv'
      · rw [h1]
        exact h _ (List.mem_cons_self _ _)
      · exact ih (fun x hx => h x (List.mem_cons_of_mem _ hx)) kv hkv'

theorem mem_idxFrom (l : List α) :
    ∀ (k : ℕ) (i : ℕ) (a : α), (i, a) ∈ idxFrom k l ↔
      k ≤ i ∧ l.get? (i - k) = some a := by
  induction l with
  | nil => intro k i a; simp [idxFrom]
  | cons b rest ih =>
    intro k i a
    simp only [idxFrom, List.mem_cons, Prod.mk.injEq, ih (k + 1)]
    constructor
    · rintro (⟨rfl, rfl⟩ | ⟨h1, h2⟩)
      · simp
      · refine ⟨by omega, ?_⟩
        have : i - k = (i - (k + 1)) + 1 := by omega
        rw [this]
        simpa using h2
    · rintro ⟨h1, h2⟩
      by_cases hik : i = k
      · subst hik
        simp only [Nat.sub_self, List.get?] at h2
        exact Or.inl ⟨rfl, by injection h2 with h3; exact h3.symm⟩
      · refine Or.inr ⟨by omega, ?_⟩
        have : i - k = (i - (k + 1)) + 1 := by omega
        rw [this] at h2
        simpa using h2

theorem map_fst_idxFrom (l : List α) : ∀ k, (idxFrom k l).map Prod.fst =
    List.range' k l.length := by
  induction l with
  | nil => intro k; simp [idxFrom]
  | cons b rest ih =>
    intro k
    simp only [idxFrom, List.map_cons, ih (k + 1), List.length_cons]
    rfl

theorem nodup_map_fst_idxFrom (l : List α) (k : ℕ) :
    ((idxFrom k l).map Prod.fst).Nodup := by
  rw [map_fst_idxFrom]
  apply List.nodup_range'
  norm_num

theorem selectRef_mem (rest : List (ℕ × AssemblyDescriptor M)) :
    ∀ b : ℕ × AssemblyDescriptor M, selectRef b rest ∈ b :: rest := by
  induction rest with
  | nil => intro b; simp [selectRef]
  | cons x rest' ih =>
    intro b
    rw [selectRef]
    have h := ih (if b.2.components.length < x.2.components.length then x else b)
    rcases List.mem_cons.mp h with h1 | h1
    · rw [h1]
      by_cases hc : b.2.components.length < x.2.components.length
      · rw [if_pos hc]
        simp
      · rw [if_neg hc]
        simp
    · exact List.mem_cons_of_mem b (List.mem_cons_of_mem x h1)

theorem assemblyBuckets_flatten_perm (descs : List (AssemblyDescriptor M)) :
    List.Perm (keyedFlatten (assemblyBuckets descs))
      ((idxFrom 0 descs).filter (fun id => !id.2.signature.isEmpty)) := by
  have haux : ∀ (l : List (ℕ × AssemblyDescriptor M))
      (bs : List (List ASig × List (ℕ × AssemblyDescriptor M))),
      List.Perm
        (keyedFlatten (l.foldl
          (fun acc id =>
            if id.2.signature.isEmpty then acc else addKeyed acc id.2.signature id) bs))
        (keyedFlatten bs ++ l.filter (fun id => !id.2.signature.isEmpty)) := by
    intro l
    induction l with
    | nil => intro bs; simp
    | cons id0 rest ih =>
      intro bs
      by_cases hsig : id0.2.signature.isEmpty
      · simp only [List.foldl_cons, if_pos hsig, List.filter_cons, hsig]
        simpa using ih bs
      · simp only [List.foldl_cons, if_neg hsig, List.filter_cons]
        have h1 := ih (addKeyed bs id0.2.signature id0)
        have h2 : List.Perm
            (keyedFlatten (addKeyed bs id0.2.signature id0) ++
              rest.filter (fun id => !id.2.signature.isEmpty))
            ((keyedFlatten bs ++ [id0]) ++
              rest.filter (fun id => !id.2.signature.isEmpty)) :=
          (keyedFlatten_addKeyed bs id0.2.signature id0).append_right _
        have h3 := h1.trans h2
        have hb : (!id0.2.signature.isEmpty) = true := by simp [hsig]
        rw [hb]
        simpa [List.append_assoc] using h3
  simpa [assemblyBuckets] using haux (idxFrom 0 descs) []

theorem assemblyBuckets_nonempty (descs : List (AssemblyDescriptor M)) :
    ∀ kb ∈ assemblyBuckets descs, kb.2 ≠ [] := by
  have haux : ∀ (l : List (ℕ × AssemblyDescriptor M))
      (bs : List (List ASig × List (ℕ × AssemblyDescriptor M))),
      (∀ kb ∈ bs, kb.2 ≠ []) →
      ∀ kb ∈ l.foldl
        (fun acc id =>
          if id.2.signature.isEmpty then acc else addKeyed acc id.2.signature id) bs,
        kb.2 ≠ [] := by
    intro l
    induction l with
    | nil => intro bs h; exact h
    | cons id0 rest ih =>
      intro bs h
      simp only [List.foldl_cons]
      by_cases hsig : id0.2.signature.isEmpty
      · rw [if_pos hsig]
        exact ih bs h
      · rw [if_neg hsig]
        exact ih _ (addKeyed_nonempty bs _ id0 h)
  exact haux (idxFrom 0 descs) [] (by simp)

theorem addKeyed_keys_mem [DecidableEq κ] (bs : List (κ × List α)) (k : κ) (a : α) :
    ∀ x, x ∈ (addKeyed bs k a).map Prod.fst ↔ x ∈ bs.map Prod.fst ∨ x = k := by
  induction bs with
  | nil => intro x; simp [addKeyed]
  | cons kv rest ih =>
    obtain ⟨k0, v⟩ := kv
    intro x
    by_cases hk : k0 = k
    · subst hk
      simp only [addKeyed, reduceIte, List.map_cons, List.mem_cons]
      constructor
      · rintro (rfl | h)
        · exact Or.inl (Or.inl rfl)
        · exact Or.inl (Or.inr h)
      · rintro ((rfl | h) | rfl)
        · exact Or.inl rfl
        · exact Or.inr h
        · exact Or.inl rfl
    · simp only [addKeyed, if_neg hk, List.map_cons, List.mem_cons, ih x]
      tauto

theorem addKeyed_keys_nodup [DecidableEq κ] (bs : List (κ × List α)) (k : κ) (a : α)
    (h : (bs.map Prod.fst).Nodup) : ((addKeyed bs k a).map Prod.fst).Nodup := by
  induction bs with
  | nil => simp [addKeyed]
  | cons kv rest ih =>
    obtain ⟨k0, v⟩ := kv
    simp only [List.map_cons, List.nodup_cons] at h
    by_cases hk : k0 = k
    · subst hk
      simp only [addKeyed, reduceIte, List.map_cons, List.nodup_cons]
      exact ⟨h.1, h.2⟩
    · simp only [addKeyed, if_neg hk, List.map_cons, List.nodup_cons]
      refine ⟨?_, ih h.2⟩
      rw [addKeyed_keys_mem]
      rintro (hx | rfl)
      · exact h.1 hx
      · exact hk rfl

theorem addKeyed_key_sound [DecidableEq κ] {keyOf : α → κ} (bs : List (κ × List α))
    (k : κ) (a : α) (hk : keyOf a = k)
    (h : ∀ kb ∈ bs, ∀ q ∈ kb.2, keyOf q = kb.1) :
    ∀ kb ∈ addKeyed bs k a, ∀ q ∈ kb.2, keyOf q = kb.1 := by
  induction bs with
  | nil =>
    intro kb hkb q hq
    simp only [addKeyed, List.mem_singleton] at hkb
    subst hkb
    simp only [List.mem_singleton] at hq
    rw [hq, hk]
  | cons kv rest ih =>
    obtain ⟨k0, v⟩ := kv
    intro kb hkb q hq
    by_cases hk0 : k0 = k
    · subst hk0
      simp only [addKeyed, reduceIte] at hkb
      rcases List.mem_cons.mp hkb with h1 | h1
      · rw [h1] at hq ⊢
        simp only [List.mem_append, List.mem_singleton] at hq
        rcases hq with hq | rfl
        · exact h (k0, v) (List.mem_cons_self _ _) q hq
        · exact hk
      · exact h kb (List.mem_cons_of_mem _ h1) q hq
    · simp only [addKeyed, if_neg hk0] at hkb
      rcases List.mem_cons.mp hkb with h1 | h1
      · rw [h1] at hq ⊢
        exact h (k0, v) (List.mem_cons_self _ _) q hq
      · exact ih (fun kb' hkb' => h kb' (List.mem_cons_of_mem _ hkb')) kb h1 q hq

theorem assemblyBuckets_keys_nodup (descs : List (AssemblyDescriptor M)) :
    ((assemblyBuckets descs).map Prod.fst).Nodup := by
  have haux : ∀ (l : List (ℕ × AssemblyDescriptor M))
      (bs : List (List ASig × List (ℕ × AssemblyDescriptor M))),
      (bs.map Prod.fst).Nodup →
      ((l.foldl
        (fun acc id =>
          if id.2.signature.isEmpty then acc else addKeyed acc id.2.signature id) bs).map
        Prod.fst).Nodup := by
    intro l
    induction l with
    | nil => intro bs h; exact h
    | cons id0 rest ih =>
      intro bs h
      simp only [List.foldl_cons]
      by_cases hsig : id0.2.signature.isEmpty
      · rw [if_pos hsig]; exact ih bs h
      · rw [if_neg hsig]; exact ih _ (addKeyed_keys_nodup bs _ id0 h)
  exact haux (idxFrom 0 descs) [] (by simp)

theorem assemblyBuckets_key_sound (descs : List (AssemblyDescriptor M)) :
    ∀ kb ∈ assemblyBuckets descs, ∀ q ∈ kb.2, q.2.signature = kb.1 := by
  have haux : ∀ (l : List (ℕ × AssemblyDescriptor M))
      (bs : List (List ASig × List (ℕ × AssemblyDescriptor M))),
      (∀ kb ∈ bs, ∀ q ∈ kb.2, q.2.signature = kb.1) →
      ∀ kb ∈ l.foldl
        (fun acc id =>
          if id.2.signature.isEmpty then acc else addKeyed acc id.2.signature id) bs,
        ∀ q ∈ kb.2, q.2.signature = kb.1 := by
    intro l
    induction l with
    | nil => intro bs h; exact h
    | cons id0 rest ih =>
      intro bs h
      simp only [List.foldl_cons]
      by_cases hsig : id0.2.signature.isEmpty
      · rw [if_pos hsig]; exact ih bs h
      · rw [if_neg hsig]
        have hsound : ∀ kb ∈ addKeyed bs id0.2.signature id0, ∀ q ∈ kb.2,
            q.2.signature = kb.1 := addKeyed_key_sound bs _ id0 rfl h
        exact ih _ hsound
  exact haux (idxFrom 0 descs) [] (by simp)

theorem sublist_keyedFlatten (bs : List (κ × List α)) (kb : κ × List α) (h : kb ∈ bs) :
    kb.2.Sublist (keyedFlatten bs) := by
  induction bs with
  | nil => simp at h
  | cons kv rest ih =>
    rcases List.mem_cons.mp h with rfl | h'
    · simp only [keyedFlatten_cons]
      exact List.sublist_append_left kb.2 (keyedFlatten rest)
    · simp only [keyedFlatten_cons]
      exact (ih h').trans (List.sublist_append_right kv.2 (keyedFlatten rest))

theorem nodup_map_inj {f : α → β} {l : List α} (h : (l.map f).Nodup) :
    ∀ a ∈ l, ∀ b ∈ l, f a = f b → a = b := by
  induction l with
  | nil => simp
  | cons x t ih =>
    simp only [List.map_cons, List.nodup_cons] at h
    intro a ha b hb hfab
    rcases List.mem_cons.mp ha with rfl | ha'
    · rcases List.mem_cons.mp hb with rfl | hb'
      · rfl
      · exact absurd (hfab ▸ List.mem_map_of_mem f hb') h.1
    · rcases List.mem_cons.mp hb with rfl | hb'
      · exact absurd (hfab ▸ List.mem_map_of_mem f ha') h.1
      · exact ih h.2 a ha' b hb' hfab

theorem bucketGroup_spec [DecidableEq M] (cfg : Config) (env : GeomOps M)
    (b : ℕ × AssemblyDescriptor M) (rest : List (ℕ × AssemblyDescriptor M)) :
    (bucketGroup cfg env (b :: rest)).prototype = (selectRef b rest).1 ∧
      (bucketGroup cfg env (b :: rest)).prototype ∈ (b :: rest).map Prod.fst ∧
      (∀ m ∈ (bucketGroup cfg env (b :: rest)).members,
        ∃ q ∈ b :: rest, q.1 = m ∧ q.1 ≠ (selectRef b rest).1 ∧
          (matchAssemblyToTemplate cfg env q.2
            (buildTemplateSlots env (selectRef b rest).2)).isSome = true) ∧
      (((b :: rest).map Prod.fst).Nodup →
        ((bucketGroup cfg env (b :: rest)).prototype ::
          (bucketGroup cfg env (b :: rest)).members).Nodup) := by
  have hmem : ∀ m ∈ (bucketGroup cfg env (b :: rest)).members,
      ∃ q ∈ b :: rest, q.1 = m ∧ q.1 ≠ (selectRef b rest).1 ∧
        (matchAssemblyToTemplate cfg env q.2
          (buildTemplateSlots env (selectRef b rest).2)).isSome = true := by
    intro m hm
    simp only [bucketGroup, List.mem_map, List.mem_filter, Bool.and_eq_true,
      decide_eq_true_eq] at hm
    obtain ⟨q, ⟨hq, hq1, hq2⟩, rfl⟩ := hm
    exact ⟨q, hq, rfl, hq1, hq2⟩
  refine ⟨rfl, ?_, hmem, ?_⟩
  · exact List.mem_map_of_mem Prod.fst (selectRef_mem rest b)
  · intro hnd
    rw [List.nodup_cons]
    constructor
    · intro hc
      obtain ⟨q, _, hq1, hq2, -⟩ := hmem _ hc
      rw [hq1] at hq2
      exact hq2 rfl
    · have hsub : (bucketGroup cfg env (b :: rest)).members.Sublist
          ((b :: rest).map Prod.fst) := by
        simp only [bucketGroup]
        exact (List.filter_sublist _).map Prod.fst
      exact hsub.nodup hnd

theorem phase1_assigned_spec [DecidableEq M] (cfg : Config) (env : GeomOps M) :
    ∀ B : List (List ASig × List (ℕ × AssemblyDescriptor M)),
      (∀ kb ∈ B, kb.2 ≠ []) →
      (∀ x ∈ allGroupIdx (B.map (fun kb => bucketGroup cfg env kb.2)),
        x ∈ (keyedFlatten B).map Prod.fst) ∧
      (((keyedFlatten B).map Prod.fst).Nodup →
        (allGroupIdx (B.map (fun kb => bucketGroup cfg env kb.2))).Nodup) := by
  intro B
  induction B with
  | nil => intro hne; simp [allGroupIdx]
  | cons kb brest ih =>
    intro hne
    obtain ⟨ihs, ihn⟩ := ih (fun x hx => hne x (List.mem_cons_of_mem _ hx))
    obtain ⟨b, rest, hkb2⟩ := List.exists_cons_of_ne_nil (hne kb (List.mem_cons_self _ _))
    have hcontrib : ∀ x, x ∈ (bucketGroup cfg env kb.2).prototype ::
        (bucketGroup cfg env kb.2).members → x ∈ kb.2.map Prod.fst := by
      intro x hx
      rw [hkb2] at hx ⊢
      obtain ⟨-, hproto, hmem, -⟩ := bucketGroup_spec cfg env b rest
      rcases List.mem_cons.mp hx with rfl | hx'
      · exact hproto
      · obtain ⟨q, hq, hq1, -, -⟩ := hmem x hx'
        exact hq1 ▸ List.mem_map_of_mem Prod.fst hq
    constructor
    · intro x hx
      simp only [List.map_cons, allGroupIdx, List.flatMap_cons, List.mem_append] at hx
      simp only [keyedFlatten_cons, List.map_append, List.mem_append]
      rcases hx with hx | hx
      · exact Or.inl (hcontrib x hx)
      · exact Or.inr (ihs x hx)
    · intro hnd
      simp only [keyedFlatten_cons, List.map_append, List.nodup_append] at hnd
      obtain ⟨h1, h2, hdisj⟩ := hnd
      simp only [List.map_cons, allGroupIdx, List.flatMap_cons]
      rw [List.nodup_append]
      refine ⟨?_, ihn h2, ?_⟩
      · rw [hkb2]
        obtain ⟨-, -, -, hnodup⟩ := bucketGroup_spec cfg env b rest
        exact hnodup (hkb2 ▸ h1)
      · intro x hx1 hx2
        exact hdisj (hcontrib x hx1) (ihs x hx2)

theorem allGroupIdx_orphans [DecidableEq M] (env : GeomOps M)
    (orphans : List (ℕ × AssemblyDescriptor M)) :
    allGroupIdx (orphans.map (fun id =>
      (⟨id.1, buildTemplateSlots env id.2, []⟩ : AssemblyGroupIdx M))) =
      orphans.map Prod.fst := by
  induction orphans with
  | nil => rfl
  | cons o rest ih =>
    simp only [List.map_cons, allGroupIdx, List.flatMap_cons] at ih ⊢
    rw [ih]
    rfl

theorem allGroupIdx_append (l1 l2 : List (AssemblyGroupIdx M)) :
    allGroupIdx (l1 ++ l2) = allGroupIdx l1 ++ allGroupIdx l2 := by
  simp [allGroupIdx]

/-- C6: `_group_assemblies` places every descriptor in exactly one assembly
group (the indices across all groups are exactly `0..n-1`, without
repetition); a descriptor with an empty signature is never bucketed and is
emitted as the prototype of its own memberless singleton group; and a
bucketed descriptor that fails to fill every template slot of its bucket's
reference is not added as a member of that bucket's group and likewise
becomes the prototype of its own trivial group. -/
theorem assembly_grouping_exactly_one [DecidableEq M] (cfg : Config) (env : GeomOps M)
    (descs : List (AssemblyDescriptor M)) :
    (∀ i, i ∈ allGroupIdx (groupAssembliesIdx cfg env descs) ↔ i < descs.length) ∧
      (allGroupIdx (groupAssembliesIdx cfg env descs)).Nodup ∧
      (∀ i d, descs.get? i = some d → d.signature = [] →
        ∃ g ∈ groupAssembliesIdx cfg env descs, g.prototype = i ∧ g.members = []) ∧
      (∀ kb ∈ assemblyBuckets descs, ∀ b rest, kb.2 = b :: rest →
        ∀ pr ∈ kb.2, pr.1 ≠ (selectRef b rest).1 →
        matchAssemblyToTemplate cfg env pr.2
          (buildTemplateSlots env (selectRef b rest).2) = none →
        pr.1 ∉ (bucketGroup cfg env kb.2).members ∧
          ∃ g ∈ groupAssembliesIdx cfg env descs, g.prototype = pr.1 ∧ g.members = []) := by
  have hBne := assemblyBuckets_nonempty descs
  have hflat := assemblyBuckets_flatten_perm descs
  have hfstnd : ((keyedFlatten (assemblyBuckets descs)).map Prod.fst).Nodup := by
    have h1 : (((idxFrom 0 descs).filter
        (fun id => !id.2.signature.isEmpty)).map Prod.fst).Nodup :=
      ((List.filter_sublist _).map Prod.fst).nodup (nodup_map_fst_idxFrom descs 0)
    exact (hflat.map Prod.fst).nodup_iff.mpr h1
  obtain ⟨hassigned_sub, hassigned_nodup'⟩ :=
    phase1_assigned_spec cfg env (assemblyBuckets descs) hBne
  have hassigned_nd := hassigned_nodup' hfstnd
  have hinj := nodup_map_inj hfstnd
  have hG : groupAssembliesIdx cfg env descs =
      (assemblyBuckets descs).map (fun kb => bucketGroup cfg env kb.2) ++
        ((idxFrom 0 descs).filter (fun id => id.1 ∉ allGroupIdx
          ((assemblyBuckets descs).map (fun kb => bucketGroup cfg env kb.2)))).map
          (fun id => ⟨id.1, buildTemplateSlots env id.2, []⟩) := rfl
  have hAll : allGroupIdx (groupAssembliesIdx cfg env descs) =
      allGroupIdx ((assemblyBuckets descs).map (fun kb => bucketGroup cfg env kb.2)) ++
        ((idxFrom 0 descs).filter (fun id => id.1 ∉ allGroupIdx
          ((assemblyBuckets descs).map (fun kb => bucketGroup cfg env kb.2)))).map
          Prod.fst := by
    rw [hG, allGroupIdx_append, allGroupIdx_orphans]
  have hmem_flat : ∀ pr, pr ∈ keyedFlatten (assemblyBuckets descs) →
      pr ∈ idxFrom 0 descs ∧ pr.2.signature ≠ [] := by
    intro pr hpr
    have h0 := hflat.subset hpr
    rw [List.mem_filter] at h0
    refine ⟨h0.1, ?_⟩
    simpa using h0.2
  have hidx_lt : ∀ pr : ℕ × AssemblyDescriptor M,
      pr ∈ idxFrom 0 descs → pr.1 < descs.length := by
    rintro ⟨i, d⟩ hpr
    rw [mem_idxFrom] at hpr
    have h2 := hpr.2
    rw [Nat.sub_zero] at h2
    exact List.get?_eq_some.mp h2 |>.1
  have hbucket_eq : ∀ kb ∈ assemblyBuckets descs, ∀ kb' ∈ assemblyBuckets descs,
      ∀ pr, pr ∈ kb.2 → pr ∈ kb'.2 → kb = kb' := by
    intro kb hkb kb' hkb' pr hpr hpr'
    have h1 := assemblyBuckets_key_sound descs kb hkb pr hpr
    have h2 := assemblyBuckets_key_sound descs kb' hkb' pr hpr'
    exact nodup_map_inj (assemblyBuckets_keys_nodup descs) kb hkb kb' hkb'
      (by rw [← h1, ← h2])
  have hflatten_of_bucket : ∀ kb ∈ assemblyBuckets descs, ∀ pr ∈ kb.2,
      pr ∈ keyedFlatten (assemblyBuckets descs) := by
    intro kb hkb pr hpr
    exact (sublist_keyedFlatten (assemblyBuckets descs) kb hkb).subset hpr
  refine ⟨?_, ?_, ?_, ?_⟩
  · intro i
    rw [hAll]
    constructor
    · intro hi
      rcases List.mem_append.mp hi with hi | hi
      · obtain ⟨pr, hpr, rfl⟩ := List.mem_map.mp (hassigned_sub i hi)
        exact hidx_lt pr (hmem_flat pr hpr).1
      · obtain ⟨pr, hpr, rfl⟩ := List.mem_map.mp hi
        exact hidx_lt pr (List.filter_sublist _ |>.subset hpr)
    · intro hi
      by_cases hia : i ∈ allGroupIdx
          ((assemblyBuckets descs).map (fun kb => bucketGroup cfg env kb.2))
      · exact List.mem_append.mpr (Or.inl hia)
      · refine List.mem_append.mpr (Or.inr ?_)
        obtain ⟨d, hd⟩ : ∃ d, descs.get? i = some d := by
          cases hq : descs.get? i with
          | none =>
            rw [List.get?_eq_none] at hq
            omega
          | some d => exact ⟨d, rfl⟩
        refine List.mem_map.mpr ⟨(i, d), ?_, rfl⟩
        rw [List.mem_filter]
        refine ⟨?_, by simpa using hia⟩
        rw [mem_idxFrom]
        exact ⟨Nat.zero_le i, by simpa using hd⟩
  · rw [hAll]
    rw [List.nodup_append]
    refine ⟨hassigned_nd, ?_, ?_⟩
    · exact ((List.filter_sublist _).map Prod.fst).nodup (nodup_map_fst_idxFrom descs 0)
    · intro x hx1 hx2
      obtain ⟨pr, hpr, rfl⟩ := List.mem_map.mp hx2
      rw [List.mem_filter] at hpr
      exact absurd hx1 (by simpa using hpr.2)
  · intro i d hget hsig
    have hnotin : i ∉ allGroupIdx
        ((assemblyBuckets descs).map (fun kb => bucketGroup cfg env kb.2)) := by
      intro hin
      obtain ⟨pr, hpr, hpr1⟩ := List.mem_map.mp (hassigned_sub i hin)
      obtain ⟨hidx, hne⟩ := hmem_flat pr hpr
      obtain ⟨j, dd⟩ := pr
      have hj : j = i := hpr1
      rw [mem_idxFrom, Nat.sub_zero] at hidx
      rw [hj, hget] at hidx
      have h3 := hidx.2
      injection h3 with h4
      exact hne (by show dd.signature = []; rw [← h4]; exact hsig)
    refine ⟨⟨i, buildTemplateSlots env d, []⟩, ?_, rfl, rfl⟩
    rw [hG]
    refine List.mem_append.mpr (Or.inr ?_)
    refine List.mem_map.mpr ⟨(i, d), ?_, rfl⟩
    rw [List.mem_filter]
    refine ⟨?_, by simpa using hnotin⟩
    rw [mem_idxFrom]
    exact ⟨Nat.zero_le i, by simpa using hget⟩
  · intro kb hkb b rest hkb2 pr hpr hneref hnone
    have hprflat := hflatten_of_bucket kb hkb pr hpr
    have hbnd : (kb.2.map Prod.fst).Nodup :=
      ((sublist_keyedFlatten (assemblyBuckets descs) kb hkb).map Prod.fst).nodup hfstnd
    constructor
    · intro hmem
      rw [hkb2] at hmem
      obtain ⟨-, -, hmemchar, -⟩ := bucketGroup_spec cfg env b rest
      obtain ⟨q, hq, hq1, -, hq3⟩ := hmemchar pr.1 hmem
      have hqeq : q = pr := by
        refine nodup_map_inj hbnd q (hkb2 ▸ hq) pr hpr hq1
      rw [hqeq, hnone] at hq3
      exact Bool.noConfusion hq3
    · have hnotassigned : pr.1 ∉ allGroupIdx
          ((assemblyBuckets descs).map (fun kb => bucketGroup cfg env kb.2)) := by
        intro hin
        rw [allGroupIdx, List.mem_flatMap] at hin
        obtain ⟨gg, hgg, hx⟩ := hin
        obtain ⟨kb', hkb', rfl⟩ := List.mem_map.mp hgg
        obtain ⟨b', rest', hkb2'⟩ :=
          List.exists_cons_of_ne_nil (hBne kb' hkb')
        obtain ⟨hproto_eq, -, hmemchar', -⟩ := bucketGroup_spec cfg env b' rest'
        rw [hkb2'] at hx
        rcases List.mem_cons.mp hx with hx1 | hx1
        · have href' : selectRef b' rest' ∈ kb'.2 := hkb2' ▸ selectRef_mem rest' b'
          have href'flat := hflatten_of_bucket kb' hkb' _ href'
          have heq : selectRef b' rest' = pr :=
            hinj _ href'flat pr hprflat (by rw [← hproto_eq, ← hx1])
          have hkbeq : kb = kb' := hbucket_eq kb hkb kb' hkb' pr hpr (heq ▸ href')
          have hlisteq : b :: rest = b' :: rest' := by
            rw [← hkb2, hkbeq, hkb2']
          injection hlisteq with hbeq hresteq
          exact hneref (by rw [hbeq, hresteq, heq])
        · obtain ⟨q, hq, hq1, -, hq3⟩ := hmemchar' pr.1 hx1
          have hqflat := hflatten_of_bucket kb' hkb' q (hkb2' ▸ hq)
          have hqeq : q = pr := hinj q hqflat pr hprflat hq1
          have hkbeq : kb = kb' := hbucket_eq kb hkb kb' hkb' pr hpr (hqeq ▸ (hkb2' ▸ hq))
          have hlisteq : b :: rest = b' :: rest' := by
            rw [← hkb2, hkbeq, hkb2']
          injection hlisteq with hbeq hresteq
          rw [hqeq, ← hbeq, ← hresteq, hnone] at hq3
          exact Bool.noConfusion hq3
      obtain ⟨hidx, -⟩ := hmem_flat pr hprflat
      refine ⟨⟨pr.1, buildTemplateSlots env pr.2, []⟩, ?_, rfl, rfl⟩
      rw [hG]
      refine List.mem_append.mpr (Or.inr ?_)
      refine List.mem_map.mpr ⟨pr, ?_, rfl⟩
      rw [List.mem_filter]
      exact ⟨hidx, by simpa using hnotassigned⟩

/-- Witness for C6: a single empty-signature descriptor becomes its own
singleton group. -/
theorem assembly_grouping_exactly_one_witness :
    ∃ g ∈ groupAssembliesIdx ({} : Config) trivialOps [cexDescriptor],
      g.prototype = 0 ∧ g.members = [] :=
  (assembly_grouping_exactly_one ({} : Config) trivialOps [cexDescriptor]).2.2.1 0
    cexDescriptor rfl rfl

theorem lookupKey_mem [DecidableEq κ] (l : List (κ × α)) (k : κ) (v : α)
    (h : lookupKey l k = some v) : (k, v) ∈ l := by
  induction l with
  | nil => exact Option.noConfusion h
  | cons kv rest ih =>
    obtain ⟨k0, v0⟩ := kv
    by_cases hk : k0 = k
    · subst hk
      simp only [lookupKey, reduceIte, Option.some.injEq] at h
      subst h
      exact List.mem_cons_self _ _
    · rw [lookupKey, if_neg hk] at h
      exact List.mem_cons_of_mem _ (ih h)

/-- C7: over true matrix algebra, a built payload's local matrix is the
inverse of the registered source transform's world matrix times the
payload's world matrix; when the payload is its own source and the world
matrix is invertible, the local matrix is the identity. -/
theorem build_payload_local_matrix (dec : Mat4 → Vec3 × Vec3 × Vec3)
    (dist : Vec3 → Vec3 → ℚ) (provider : SceneProvider Mat4) (st : RegState Mat4)
    (t : ℕ) (p : InstancePayload Mat4)
    (hcache : ∀ pr ∈ st.source_world_mats, pr.2 = provider.worldMatrix pr.1)
    (hbuild : buildPayload (mat4Ops dec dist) provider st t = some p) :
    p.matrix = provider.worldMatrix t ∧
      p.source_transform = (lookupKey st.component_to_source t).getD t ∧
      p.local_matrix =
        (provider.worldMatrix p.source_transform).det⁻¹ •
          (provider.worldMatrix p.source_transform).adjugate * p.matrix ∧
      (p.source_transform = p.transform →
        IsUnit (provider.worldMatrix t).det → p.local_matrix = 1) := by
  rw [buildPayload] at hbuild
  cases hshape : provider.getShape t with
  | none =>
    simp only [hshape] at hbuild
    exact Option.noConfusion hbuild
  | some sh =>
    simp only [hshape] at hbuild
    by_cases hmesh : provider.shapeIsMesh sh = true
    · rw [if_neg (by simp [hmesh])] at hbuild
      simp only [Option.some.injEq] at hbuild
      have hsm : (lookupKey st.source_world_mats
          ((lookupKey st.component_to_source t).getD t)).getD
            (provider.worldMatrix ((lookupKey st.component_to_source t).getD t)) =
          provider.worldMatrix ((lookupKey st.component_to_source t).getD t) := by
        cases hl : lookupKey st.source_world_mats
            ((lookupKey st.component_to_source t).getD t) with
        | none => rfl
        | some m =>
          rw [Option.getD_some]
          exact hcache _ (lookupKey_mem _ _ _ hl)
      subst hbuild
      refine ⟨rfl, rfl, ?_, ?_⟩
      · show (mat4Ops dec dist).mult ((mat4Ops dec dist).inverse _) _ = _
        rw [hsm]
        rfl
      · intro hsrc hunit
        show (mat4Ops dec dist).mult ((mat4Ops dec dist).inverse _) _ = 1
        rw [hsm]
        show (provider.worldMatrix ((lookupKey st.component_to_source t).getD t)).det⁻¹ •
          (provider.worldMatrix ((lookupKey st.component_to_source t).getD t)).adjugate *
          provider.worldMatrix t = 1
        have hsrc' : (lookupKey st.component_to_source t).getD t = t := hsrc
        rw [hsrc']
        rw [Matrix.smul_mul, Matrix.adjugate_mul]
        rw [smul_smul]
        rw [inv_mul_cancel₀ (by
          intro hz
          rw [hz] at hunit
          exact (by simpa using hunit : False))]
        exact one_smul _ _
    · rw [if_pos (by simp [hmesh])] at hbuild
      exact Option.noConfusion hbuild


/-- Witness for C7: the identity world matrix yields the identity local
matrix for a self-sourced payload. -/
theorem build_payload_local_matrix_witness : wPayload.local_matrix = 1 :=
  (build_payload_local_matrix (fun _ => ((0, 0, 0), (0, 0, 0), (0, 0, 0)))
    (fun _ _ => 0) wProvider ⟨[], []⟩ 0 wPayload (by simp [RegState.source_world_mats])
    rfl).2.2.2 rfl (by show IsUnit (1 : Mat4).det; rw [Matrix.det_one]; exact isUnit_one)

theorem buildPayload_transform (env : GeomOps M) (provider : SceneProvider M)
    (st : RegState M) (t : ℕ) (p : InstancePayload M)
    (h : buildPayload env provider st t = some p) : p.transform = t := by
  rw [buildPayload] at h
  cases hshape : provider.getShape t with
  | none =>
    simp only [hshape] at h
    exact Option.noConfusion h
  | some sh =>
    simp only [hshape] at h
    by_cases hmesh : provider.shapeIsMesh sh = true
    · rw [if_neg (by simp [hmesh])] at h
      simp only [Option.some.injEq] at h
      subst h
      rfl
    · rw [if_pos (by simp [hmesh])] at h
      exact Option.noConfusion h

theorem buildPayload_none_iff (env : GeomOps M) (provider : SceneProvider M)
    (st : RegState M) (t : ℕ) :
    buildPayload env provider st t = none ↔
      provider.getShape t = none ∨
        ∃ sh, provider.getShape t = some sh ∧ provider.shapeIsMesh sh = false := by
  rw [buildPayload]
  cases hshape : provider.getShape t with
  | none => simp [hshape]
  | some sh =>
    by_cases hmesh : provider.shapeIsMesh sh = true
    · simp [hshape, hmesh]
    · have hm' : provider.shapeIsMesh sh = false := by simpa using hmesh
      simp [hshape, hm']

theorem selectAnchorFrom_subset [DecidableEq M] (components : List (InstancePayload M)) :
    ∀ cands : List (InstancePayload M),
      ∀ p ∈ selectAnchorFrom components cands, p ∈ components := by
  intro cands
  induction cands with
  | nil => simp [selectAnchorFrom]
  | cons c rest ih =>
    intro p hp
    rw [selectAnchorFrom] at hp
    split at hp
    · rw [mem_sortByB] at hp
      exact (List.mem_filter.mp hp).1
    · exact ih p hp

theorem selectAnchorPayloads_subset [DecidableEq M]
    (components : List (InstancePayload M)) :
    ∀ p ∈ selectAnchorPayloads components, p ∈ components :=
  fun p hp => selectAnchorFrom_subset components _ p hp

theorem buildAnchorTemplateSlots_prototype_mem [DecidableEq M] (cfg : Config)
    (env : GeomOps M) (anchor : InstancePayload M)
    (components : List (InstancePayload M)) (assembly_count : ℕ) :
    ∀ slot ∈ buildAnchorTemplateSlots cfg env anchor components assembly_count,
      slot.prototype_payload ∈ components := by
  intro slot hslot
  rw [buildAnchorTemplateSlots] at hslot
  simp only [List.mem_map] at hslot
  obtain ⟨ip, hip, rfl⟩ := hslot
  obtain ⟨i, q⟩ := ip
  rw [mem_idxFrom] at hip
  have := List.get?_mem hip.2
  exact (List.mem_filter.mp this).1

theorem buildAnchorAvailability_subset (consumed anchors components :
    List (InstancePayload M)) :
    ∀ p ∈ flattenAvail (buildAnchorAvailability consumed anchors components),
      p ∈ components := by
  have haux : ∀ (cs : List (InstancePayload M)) (av : Avail M),
      ∀ q ∈ flattenAvail (cs.foldl
        (fun a c =>
          if c.transform ∈ consumed.map InstancePayload.transform then a
          else if c.transform ∈ anchors.map InstancePayload.transform then a
          else addKeyed a (componentSignature c) c) av),
        q ∈ flattenAvail av ∨ q ∈ cs := by
    intro cs
    induction cs with
    | nil => intro av q hq; exact Or.inl hq
    | cons c rest ih =>
      intro av q hq
      simp only [List.foldl_cons] at hq
      by_cases hc1 : c.transform ∈ consumed.map InstancePayload.transform
      · rw [if_pos hc1] at hq
        rcases ih av q hq with h | h
        · exact Or.inl h
        · exact Or.inr (List.mem_cons_of_mem c h)
      · rw [if_neg hc1] at hq
        by_cases hc2 : c.transform ∈ anchors.map InstancePayload.transform
        · rw [if_pos hc2] at hq
          rcases ih av q hq with h | h
          · exact Or.inl h
          · exact Or.inr (List.mem_cons_of_mem c h)
        · rw [if_neg hc2] at hq
          rcases ih _ q hq with h | h
          · have := (flatten_addKeyed_perm av (componentSignature c) c).subset h
            rcases List.mem_append.mp this with h' | h'
            · exact Or.inl h'
            · rcases List.mem_singleton.mp h' with rfl
              exact Or.inr (List.mem_cons_self _ _)
          · exact Or.inr (List.mem_cons_of_mem c h)
  intro p hp
  rw [buildAnchorAvailability, mem_flatten_sortBuckets] at hp
  rcases haux components [] p hp with h | h
  · simp at h
  · exact h

theorem matchAnchorAux_avail_mono
    (score : AssemblyTemplateSlot M → InstancePayload M → Option ℚ)
    (anchor : InstancePayload M) :
    ∀ (slots : List (AssemblyTemplateSlot M)) (avail : Avail M)
      (acc : List (ℕ × InstancePayload M)),
      ∀ x ∈ flattenAvail (matchAnchorAux score anchor slots avail acc).2,
        x ∈ flattenAvail avail := by
  intro slots
  induction slots with
  | nil => intro avail acc x hx; exact hx
  | cons slot rest ih =>
    intro avail acc x hx
    by_cases hroot : slot.is_root
    · rw [matchAnchorAux, if_pos hroot] at hx
      exact ih avail _ x hx
    · rw [matchAnchorAux, if_neg hroot] at hx
      rcases hpb : pickBest (score slot) (lookupAvail avail slot.signature)
        with _ | ⟨i, p, sc⟩
      · simp only [hpb] at hx
        exact hx
      · simp only [hpb] at hx
        have hx' := ih _ _ x hx
        obtain ⟨hget, -, -⟩ := pickBest_spec _ _ _ _ _ hpb
        have hperm := setAvail_extract_perm avail slot.signature p _
          (get?_eraseIdx_perm _ i p hget)
        exact hperm.symm.subset (List.mem_cons_of_mem p hx')

theorem matchAnchor_assign_mem (cfg : Config) (env : GeomOps M)
    (anchor : InstancePayload M) (slots : List (AssemblyTemplateSlot M))
    (avail : Avail M) (ms : List (ℕ × InstancePayload M)) (avOut : Avail M)
    (hm : matchAnchorToTemplateSlots cfg env anchor slots avail = (some ms, avOut)) :
    ∀ pr ∈ ms, pr.2 = anchor ∨ pr.2 ∈ flattenAvail avail := by
  obtain ⟨tl, htail, hfa, -⟩ :=
    matchAnchorAux_spec (slotScore cfg env anchor) anchor slots avail [] ms avOut hm
  simp only [List.nil_append] at htail
  rw [← htail] at hfa
  intro pr hpr
  obtain ⟨slot, -, hR⟩ := forall2_mem_right hfa pr hpr
  by_cases hroot : slot.is_root
  · exact Or.inl (hR.2.1 hroot)
  · exact Or.inr (hR.2.2 (by simp [hroot]))

theorem orderedSlotPayloads_mem (pairs : List (ℕ × InstancePayload M)) :
    ∀ (slots : List (AssemblyTemplateSlot M)) (out : List (InstancePayload M)),
      orderedSlotPayloads pairs slots = some out →
      ∀ x ∈ out, ∃ sid, (sid, x) ∈ pairs := by
  intro slots
  induction slots with
  | nil =>
    intro out h
    simp only [orderedSlotPayloads, Option.some.injEq] at h
    subst h
    simp
  | cons slot rest ih =>
    intro out h
    rw [orderedSlotPayloads] at h
    cases hl : lookupKey pairs slot.slot_id with
    | none => rw [hl] at h; exact Option.noConfusion h
    | some v =>
      rw [hl] at h
      cases hr : orderedSlotPayloads pairs rest with
      | none => rw [hr] at h; exact Option.noConfusion h
      | some vs =>
        rw [hr] at h
        simp only [Option.some.injEq] at h
        subst h
        intro x hx
        rcases List.mem_cons.mp hx with rfl | hx'
        · exact ⟨slot.slot_id, lookupKey_mem _ _ _ hl⟩
        · exact ih vs hr x hx'

theorem descriptorFromSlotMapping_spec (env : GeomOps M) (anchor : InstancePayload M)
    (source_transform : ℕ) (slot_payloads : List (ℕ × InstancePayload M))
    (template_slots : List (AssemblyTemplateSlot M)) (d : AssemblyDescriptor M)
    (h : descriptorFromSlotMapping env anchor source_transform slot_payloads
      template_slots = some d) :
    ∀ x ∈ d.components, ∃ sid, (sid, x) ∈ slot_payloads := by
  rw [descriptorFromSlotMapping] at h
  cases ho : orderedSlotPayloads slot_payloads template_slots with
  | none => rw [ho] at h; exact Option.noConfusion h
  | some ordered =>
    rw [ho] at h
    simp only [Option.some.injEq] at h
    subst h
    exact orderedSlotPayloads_mem slot_payloads template_slots ordered ho

theorem descriptorFromComponents_components (env : GeomOps M) (src : ℕ)
    (comps : List (InstancePayload M)) (d : AssemblyDescriptor M)
    (h : descriptorFromComponents env src comps = some d) : d.components = comps := by
  rw [descriptorFromComponents] at h
  cases hr : rootOfComponents comps with
  | none => rw [hr] at h; exact Option.noConfusion h
  | some root =>
    rw [hr] at h
    simp only [Option.some.injEq] at h
    subst h
    rfl

theorem deriveAnchorStep_subset [DecidableEq M] (cfg : Config) (env : GeomOps M)
    (template_anchor : InstancePayload M) (tslots : List (AssemblyTemplateSlot M))
    (components : List (InstancePayload M))
    (st : List (AssemblyDescriptor M) × Avail M × List ℕ) (a : InstancePayload M)
    (hd : ∀ d ∈ st.1, ∀ y ∈ d.components, y ∈ components)
    (hav : ∀ y ∈ flattenAvail st.2.1, y ∈ components) (ha : a ∈ components) :
    (∀ d ∈ (deriveAnchorStep cfg env template_anchor tslots st a).1,
      ∀ y ∈ d.components, y ∈ components) ∧
    (∀ y ∈ flattenAvail (deriveAnchorStep cfg env template_anchor tslots st a).2.1,
      y ∈ components) := by
  by_cases heq : a = template_anchor
  · have hstep : deriveAnchorStep cfg env template_anchor tslots st a = st := by
      rw [deriveAnchorStep, if_pos heq]
    rw [hstep]
    exact ⟨hd, hav⟩
  · rcases hr : matchAnchorToTemplateSlots cfg env a tslots st.2.1 with ⟨o, av⟩
    have hsnd : (matchAnchorAux (slotScore cfg env a) a tslots st.2.1 []).2 = av := by
      rw [show matchAnchorAux (slotScore cfg env a) a tslots st.2.1 [] =
        matchAnchorToTemplateSlots cfg env a tslots st.2.1 from rfl, hr]
    have hmono : ∀ y ∈ flattenAvail av, y ∈ components := by
      intro y hy
      refine hav y (matchAnchorAux_avail_mono (slotScore cfg env a) a tslots st.2.1 [] y ?_)
      rw [hsnd]
      exact hy
    cases o with
    | none =>
      have hstep : deriveAnchorStep cfg env template_anchor tslots st a
          = (st.1, av, st.2.2) := by
        rw [deriveAnchorStep, if_neg heq, hr]
      rw [hstep]
      exact ⟨hd, hmono⟩
    | some ms =>
      have hassign := matchAnchor_assign_mem cfg env a tslots st.2.1 ms av hr
      cases hdm : descriptorFromSlotMapping env a a.transform ms tslots with
      | none =>
        have hstep : deriveAnchorStep cfg env template_anchor tslots st a
            = (st.1, av, st.2.2) := by
          rw [deriveAnchorStep, if_neg heq, hr]
          simp [hdm]
        rw [hstep]
        exact ⟨hd, hmono⟩
      | some dnew =>
        have hstep : deriveAnchorStep cfg env template_anchor tslots st a
            = (st.1 ++ [dnew], av, st.2.2 ++ ms.map (fun pr => pr.2.transform)) := by
          rw [deriveAnchorStep, if_neg heq, hr]
          simp [hdm]
        rw [hstep]
        refine ⟨?_, hmono⟩
        intro d' hd' y hy
        rcases List.mem_append.mp hd' with h1 | h1
        · exact hd d' h1 y hy
        · rcases List.mem_singleton.mp h1 with rfl
          obtain ⟨sid, hsid⟩ := descriptorFromSlotMapping_spec env a a.transform ms
            tslots d' hdm y hy
          rcases hassign (sid, y) hsid with h2 | h2
          · have h2' : y = a := h2
            rw [h2']
            exact ha
          · exact hav y h2

theorem deriveFromTemplateAnchor_subset [DecidableEq M] (cfg : Config) (env : GeomOps M)
    (template_anchor : InstancePayload M) (anchors components : List (InstancePayload M))
    (source_transform : ℕ) (assembly_count : ℕ)
    (hanchors : ∀ a ∈ anchors, a ∈ components) :
    ∀ d ∈ deriveFromTemplateAnchor cfg env template_anchor anchors components
      source_transform assembly_count, ∀ x ∈ d.components, x ∈ components := by
  intro d hd x hx
  rw [deriveFromTemplateAnchor] at hd
  split at hd
  · simp at hd
  · rcases hfil : (buildAnchorTemplateSlots cfg env template_anchor components
        assembly_count).filter
        (fun slot => decide (slot.signature = componentSignature template_anchor))
      with _ | ⟨root_slot, _ | ⟨s2, rest2⟩⟩
    · simp only [hfil] at hd
      simp at hd
    · simp only [hfil] at hd
      split at hd
      · simp at hd
      · rcases hdm : descriptorFromSlotMapping env template_anchor
            template_anchor.transform
            ((buildAnchorTemplateSlots cfg env template_anchor components
              assembly_count).map (fun slot => (slot.slot_id, slot.prototype_payload)))
            (buildAnchorTemplateSlots cfg env template_anchor components assembly_count)
          with _ | template_descriptor
        · simp only [hdm] at hd
          simp at hd
        · simp only [hdm] at hd
          have htd : ∀ y ∈ template_descriptor.components, y ∈ components := by
            intro y hy
            obtain ⟨sid, hsid⟩ := descriptorFromSlotMapping_spec env template_anchor
              template_anchor.transform _ _ template_descriptor hdm y hy
            rw [List.mem_map] at hsid
            obtain ⟨slot, hslot, hpr⟩ := hsid
            rw [Prod.mk.injEq] at hpr
            rw [← hpr.2]
            exact buildAnchorTemplateSlots_prototype_mem cfg env template_anchor
              components assembly_count slot hslot
          have hfold : ∀ (as : List (InstancePayload M))
              (st : List (AssemblyDescriptor M) × Avail M × List ℕ),
              (∀ d' ∈ st.1, ∀ y ∈ d'.components, y ∈ components) →
              (∀ y ∈ flattenAvail st.2.1, y ∈ components) →
              (∀ a ∈ as, a ∈ components) →
              ∀ d' ∈ (as.foldl (deriveAnchorStep cfg env template_anchor
                (buildAnchorTemplateSlots cfg env template_anchor components
                  assembly_count)) st).1,
                ∀ y ∈ d'.components, y ∈ components := by
            intro as
            induction as with
            | nil => intro st h1 h2 h3; exact h1
            | cons a rest ih =>
              intro st h1 h2 h3
              simp only [List.foldl_cons]
              obtain ⟨h1', h2'⟩ := deriveAnchorStep_subset cfg env template_anchor _
                components st a h1 h2 (h3 a (List.mem_cons_self _ _))
              exact ih _ h1' h2' (fun a' ha' => h3 a' (List.mem_cons_of_mem _ ha'))
          have hmain := hfold anchors
            ([template_descriptor],
              buildAnchorAvailability
                (((buildAnchorTemplateSlots cfg env template_anchor components
                  assembly_count).map
                  (fun slot => (slot.slot_id, slot.prototype_payload))).map
                  (fun pr => pr.2)) anchors components,
              ((buildAnchorTemplateSlots cfg env template_anchor components
                assembly_count).map
                (fun slot => (slot.slot_id, slot.prototype_payload))).map
                (fun pr => pr.2.transform))
            (by
              intro d' hd' y hy
              rcases List.mem_singleton.mp hd' with rfl
              exact htd y hy)
            (fun y hy => buildAnchorAvailability_subset _ _ _ y hy) hanchors
          split at hd
          · simp at hd
          · split at hd
            · exact hmain d hd x hx
            · split at hd
              · exact hmain d hd x hx
              · rename_i fallback hfb
                rcases List.mem_append.mp hd with h1 | h1
                · exact hmain d h1 x hx
                · rcases List.mem_singleton.mp h1 with rfl
                  rw [descriptorFromComponents_components env source_transform _ d hfb]
                    at hx
                  exact (List.mem_filter.mp hx).1
    · simp only [hfil] at hd
      simp at hd

theorem firstDerive_subset [DecidableEq M] (cfg : Config) (env : GeomOps M)
    (anchors components : List (InstancePayload M)) (source_transform : ℕ)
    (assembly_count : ℕ) (hanchors : ∀ a ∈ anchors, a ∈ components) :
    ∀ cand : List (InstancePayload M),
      ∀ d ∈ firstDerive cfg env anchors components source_transform assembly_count cand,
        ∀ x ∈ d.components, x ∈ components := by
  intro cand
  induction cand with
  | nil => simp [firstDerive]
  | cons a rest ih =>
    intro d hd x hx
    rw [firstDerive] at hd
    by_cases hie : (deriveFromTemplateAnchor cfg env a anchors components
        source_transform assembly_count).isEmpty = true
    · rw [if_pos hie] at hd
      exact ih d hd x hx
    · rw [if_neg hie] at hd
      exact deriveFromTemplateAnchor_subset cfg env a anchors components
        source_transform assembly_count hanchors d hd x hx

theorem deriveAnchorAssemblies_subset [DecidableEq M] (cfg : Config) (env : GeomOps M)
    (source_transform : ℕ) (components : List (InstancePayload M)) :
    ∀ d ∈ deriveAnchorAssemblies cfg env source_transform components,
      ∀ x ∈ d.components, x ∈ components := by
  intro d hd x hx
  rw [deriveAnchorAssemblies] at hd
  split at hd
  · simp at hd
  · by_cases hlen : (selectAnchorPayloads components).length < 2
    · rw [if_pos hlen] at hd
      simp at hd
    · rw [if_neg hlen] at hd
      exact firstDerive_subset cfg env _ components source_transform _
        (selectAnchorPayloads_subset components) _ d hd x hx

theorem bucketsBySource_flatten_perm (payloads : List (InstancePayload M)) :
    List.Perm (keyedFlatten (bucketsBySource payloads)) payloads := by
  have haux : ∀ (ps : List (InstancePayload M)) (bs : List (ℕ × List (InstancePayload M))),
      List.Perm (keyedFlatten (ps.foldl (fun b p => addKeyed b p.source_transform p) bs))
        (keyedFlatten bs ++ ps) := by
    intro ps
    induction ps with
    | nil => intro bs; simp
    | cons p rest ih =>
      intro bs
      simp only [List.foldl_cons]
      have h1 := ih (addKeyed bs p.source_transform p)
      have h2 : List.Perm (keyedFlatten (addKeyed bs p.source_transform p) ++ rest)
          ((keyedFlatten bs ++ [p]) ++ rest) :=
        (keyedFlatten_addKeyed bs p.source_transform p).append_right rest
      simpa using h1.trans h2
  simpa [bucketsBySource] using haux payloads []

theorem buildAssemblies_subset [DecidableEq M] (cfg : Config) (env : GeomOps M)
    (payloads : List (InstancePayload M)) :
    ∀ d ∈ buildAssemblies cfg env payloads, ∀ x ∈ d.components, x ∈ payloads := by
  have hbk : ∀ kv ∈ bucketsBySource payloads, ∀ q ∈ kv.2, q ∈ payloads := by
    intro kv hkv q hq
    exact (bucketsBySource_flatten_perm payloads).subset
      (mem_keyedFlatten_of_mem _ kv hkv q hq)
  have haux : ∀ (bs : List (ℕ × List (InstancePayload M)))
      (acc : List (AssemblyDescriptor M)),
      (∀ d ∈ acc, ∀ x ∈ d.components, x ∈ payloads) →
      (∀ kv ∈ bs, ∀ q ∈ kv.2, q ∈ payloads) →
      ∀ d ∈ bs.foldl
        (fun acc kv =>
          let anchor_assemblies :=
            if cfg.derive_anchor_assemblies then deriveAnchorAssemblies cfg env kv.1 kv.2
            else []
          if !anchor_assemblies.isEmpty then acc ++ anchor_assemblies
          else
            match descriptorFromComponents env kv.1 kv.2 with
            | none => acc
            | some d => acc ++ [d]) acc,
        ∀ x ∈ d.components, x ∈ payloads := by
    intro bs
    induction bs with
    | nil => intro acc hacc hin; exact hacc
    | cons kv rest ih =>
      intro acc hacc hin
      simp only [List.foldl_cons]
      refine ih _ ?_ (fun kv' hkv' => hin kv' (List.mem_cons_of_mem _ hkv'))
      intro d hd x hx
      have hkv2 : ∀ q ∈ kv.2, q ∈ payloads := hin kv (List.mem_cons_self _ _)
      have hmatch : ∀ (hmem : d ∈ (match descriptorFromComponents env kv.1 kv.2 with
          | none => acc
          | some dd => acc ++ [dd])), x ∈ payloads := by
        intro hmem
        cases hdd : descriptorFromComponents env kv.1 kv.2 with
        | none =>
          rw [hdd] at hmem
          exact hacc d hmem x hx
        | some dd =>
          rw [hdd] at hmem
          rcases List.mem_append.mp hmem with h1 | h1
          · exact hacc d h1 x hx
          · rcases List.mem_singleton.mp h1 with rfl
            rw [descriptorFromComponents_components env kv.1 kv.2 d hdd] at hx
            exact hkv2 x hx
      by_cases hda : cfg.derive_anchor_assemblies = true
      · rw [if_pos hda] at hd
        by_cases hie : (deriveAnchorAssemblies cfg env kv.1 kv.2).isEmpty = true
        · rw [if_neg (by simp [hie])] at hd
          exact hmatch hd
        · rw [if_pos (by simp [Bool.not_eq_true] at hie ⊢; exact hie)] at hd
          rcases List.mem_append.mp hd with h1 | h1
          · exact hacc d h1 x hx
          · exact hkv2 x (deriveAnchorAssemblies_subset cfg env kv.1 kv.2 d h1 x hx)
      · rw [if_neg hda] at hd
        rw [if_neg (by simp)] at hd
        exact hmatch hd
  intro d hd x hx
  exact haux (bucketsBySource payloads) [] (by simp) hbk d hd x hx

theorem separateDiscover_eq [DecidableEq M] (cfg : Config) (env : GeomOps M)
    (provider : SceneProvider M) (st0 : RegState M) (transforms : List ℕ)
    (hne : transforms ≠ []) :
    separateDiscover cfg env provider st0 transforms =
      if (discoveredPayloads cfg env provider transforms).isEmpty then
        Except.error "No mesh payloads discovered; aborting instance separation."
      else
        Except.ok ⟨groupPayloads cfg (discoveredPayloads cfg env provider transforms),
          (discoveredPayloads cfg env provider transforms).length,
          buildAssemblies cfg env (discoveredPayloads cfg env provider transforms),
          groupAssembliesIdx cfg env
            (buildAssemblies cfg env (discoveredPayloads cfg env provider transforms))⟩ := by
  obtain ⟨t0, rest, rfl⟩ : ∃ a l, transforms = a :: l := by
    cases transforms with
    | nil => exact absurd rfl hne
    | cons a l => exact ⟨a, l, rfl⟩
  rw [separateDiscover, if_neg (by simp)]
  rfl

theorem separateDiscover_ok_shape [DecidableEq M] (cfg : Config) (env : GeomOps M)
    (provider : SceneProvider M) (st0 : RegState M) (transforms : List ℕ)
    (res : InstanceSeparationResult M)
    (h : separateDiscover cfg env provider st0 transforms = Except.ok res) :
    transforms ≠ [] ∧
    (discoveredPayloads cfg env provider transforms).isEmpty = false ∧
    res = ⟨groupPayloads cfg (discoveredPayloads cfg env provider transforms),
      (discoveredPayloads cfg env provider transforms).length,
      buildAssemblies cfg env (discoveredPayloads cfg env provider transforms),
      groupAssembliesIdx cfg env
        (buildAssemblies cfg env (discoveredPayloads cfg env provider transforms))⟩ := by
  have hne : transforms ≠ [] := by
    intro hcon
    subst hcon
    exact Except.noConfusion h
  rw [separateDiscover_eq cfg env provider st0 transforms hne] at h
  by_cases hpe : (discoveredPayloads cfg env provider transforms).isEmpty = true
  · rw [if_pos hpe] at h
    exact Except.noConfusion h
  · rw [if_neg hpe] at h
    refine ⟨hne, by simpa using hpe, ?_⟩
    injection h with h1
    exact h1.symm

theorem discoveredPayloads_transform_mem [DecidableEq M] (cfg : Config) (env : GeomOps M)
    (provider : SceneProvider M) (transforms : List ℕ) (t : ℕ)
    (hnull : provider.getShape t = none ∨
      ∃ sh, provider.getShape t = some sh ∧ provider.shapeIsMesh sh = false) :
    ∀ p ∈ discoveredPayloads cfg env provider transforms, p.transform ≠ t := by
  intro p hpD heq
  simp only [discoveredPayloads] at hpD
  rw [List.mem_filterMap] at hpD
  obtain ⟨a, ha, hba⟩ := hpD
  have hpt : p.transform = a := buildPayload_transform env provider _ a p hba
  rw [heq] at hpt
  rw [← hpt] at hba
  rw [(buildPayload_none_iff env provider _ t).mpr hnull] at hba
  exact Option.noConfusion hba

/-- C8: the discovery entry point errors exactly when the input transform
list is empty (message "No transforms supplied for instance separation.")
or when every supplied handle fails to yield a mesh payload (message "No
mesh payloads discovered; aborting instance separation."); it succeeds in
every other case; and a handle whose shape lookup yields no shape or a
non-mesh shape produces no payload, hence appears in no instance group and
in no assembly descriptor of a successful result. -/
theorem separate_error_spec [DecidableEq M] (cfg : Config) (env : GeomOps M)
    (provider : SceneProvider M) (st0 : RegState M) (transforms : List ℕ) :
    (separateDiscover cfg env provider st0 transforms =
        Except.error "No transforms supplied for instance separation." ↔
      transforms = []) ∧
    (separateDiscover cfg env provider st0 transforms =
        Except.error "No mesh payloads discovered; aborting instance separation." ↔
      transforms ≠ [] ∧ discoveredPayloads cfg env provider transforms = []) ∧
    ((∃ res, separateDiscover cfg env provider st0 transforms = Except.ok res) ↔
      transforms ≠ [] ∧ discoveredPayloads cfg env provider transforms ≠ []) ∧
    (∀ t ∈ transforms,
      (provider.getShape t = none ∨
        ∃ sh, provider.getShape t = some sh ∧ provider.shapeIsMesh sh = false) →
      ∀ res, separateDiscover cfg env provider st0 transforms = Except.ok res →
        (∀ p ∈ joinedPayloads res.groups, p.transform ≠ t) ∧
        (∀ d ∈ res.assemblies, ∀ p ∈ d.components, p.transform ≠ t)) := by
  cases transforms with
  | nil =>
    have h0 : separateDiscover cfg env provider st0 ([] : List ℕ) =
        Except.error "No transforms supplied for instance separation." := rfl
    refine ⟨by simp [h0], ?_, ?_, ?_⟩
    · rw [h0]
      constructor
      · intro h
        injection h with h'
        exact absurd h' (by decide)
      · rintro ⟨hne, -⟩
        exact absurd rfl hne
    · rw [h0]
      constructor
      · rintro ⟨res, h⟩
        exact Except.noConfusion h
      · rintro ⟨hne, -⟩
        exact absurd rfl hne
    · intro t ht
      exact absurd ht (List.not_mem_nil t)
  | cons t0 rest =>
    have hne : (t0 :: rest : List ℕ) ≠ [] := by simp
    have hEq := separateDiscover_eq cfg env provider st0 (t0 :: rest) hne
    by_cases hpe : (discoveredPayloads cfg env provider (t0 :: rest)).isEmpty = true
    · have hD : discoveredPayloads cfg env provider (t0 :: rest) = [] := by
        cases hq : discoveredPayloads cfg env provider (t0 :: rest) with
        | nil => rfl
        | cons a l =>
          rw [hq] at hpe
          simp at hpe
      have hsep : separateDiscover cfg env provider st0 (t0 :: rest) =
          Except.error "No mesh payloads discovered; aborting instance separation." := by
        rw [hEq, if_pos hpe]
      refine ⟨?_, ?_, ?_, ?_⟩
      · rw [hsep]
        constructor
        · intro h
          injection h with h'
          exact absurd h' (by decide)
        · intro h
          exact absurd h hne
      · rw [hsep]
        exact iff_of_true rfl ⟨hne, hD⟩
      · rw [hsep]
        constructor
        · rintro ⟨res, h⟩
          exact Except.noConfusion h
        · rintro ⟨-, hD'⟩
          exact absurd hD hD'
      · intro t ht hnull res hres
        rw [hsep] at hres
        exact Except.noConfusion hres
    · have hD' : discoveredPayloads cfg env provider (t0 :: rest) ≠ [] := by
        intro hc
        rw [hc] at hpe
        simp at hpe
      have hsep : separateDiscover cfg env provider st0 (t0 :: rest) =
          Except.ok ⟨groupPayloads cfg (discoveredPayloads cfg env provider (t0 :: rest)),
            (discoveredPayloads cfg env provider (t0 :: rest)).length,
            buildAssemblies cfg env (discoveredPayloads cfg env provider (t0 :: rest)),
            groupAssembliesIdx cfg env
              (buildAssemblies cfg env
                (discoveredPayloads cfg env provider (t0 :: rest)))⟩ := by
        rw [hEq, if_neg hpe]
      refine ⟨?_, ?_, ?_, ?_⟩
      · rw [hsep]
        constructor
        · intro h
          exact Except.noConfusion h
        · intro h
          exact absurd h hne
      · rw [hsep]
        constructor
        · intro h
          exact Except.noConfusion h
        · rintro ⟨-, hc⟩
          exact absurd hc hD'
      · rw [hsep]
        exact iff_of_true ⟨_, rfl⟩ ⟨hne, hD'⟩
      · intro t ht hnull res hres
        rw [hsep] at hres
        injection hres with hres'
        subst hres'
        have hkey := discoveredPayloads_transform_mem cfg env provider (t0 :: rest) t hnull
        constructor
        · intro p hp
          exact hkey p
            ((groupPayloads_perm cfg (discoveredPayloads cfg env provider (t0 :: rest))).subset hp)
        · intro d hd p hpc
          exact hkey p
            (buildAssemblies_subset cfg env (discoveredPayloads cfg env provider (t0 :: rest))
              d hd p hpc)

/-- Witness for C8: one handle whose shape lookup fails yields the
"no mesh payloads" error. -/
theorem separate_error_spec_witness :
    separateDiscover ({} : Config) trivialOps nullProvider ⟨[], []⟩ [0] =
      Except.error "No mesh payloads discovered; aborting instance separation." :=
  (separate_error_spec ({} : Config) trivialOps nullProvider ⟨[], []⟩ [0]).2.1.mpr
    ⟨by simp, rfl⟩

theorem map_prototype_appendMemberAt (groups : List (InstanceGroup M)) (i : ℕ)
    (p : InstancePayload M) :
    (appendMemberAt groups i p).map InstanceGroup.prototype =
      groups.map InstanceGroup.prototype := by
  induction groups generalizing i with
  | nil => rfl
  | cons g gs ih =>
    cases i with
    | zero => rfl
    | succ n => simp [appendMemberAt, ih]

theorem prototypes_foldl (cfg : Config) :
    ∀ (ps : List (InstancePayload M)) (groups : List (InstanceGroup M)),
      ∃ t, List.Sublist t ps ∧
        (ps.foldl (addPayloadToGroups cfg) groups).map InstanceGroup.prototype =
          groups.map InstanceGroup.prototype ++ t := by
  intro ps
  induction ps with
  | nil =>
    intro groups
    exact ⟨[], List.nil_sublist _, by simp⟩
  | cons p rest ih =>
    intro groups
    rw [List.foldl_cons]
    cases hm : matchGroupIdx cfg p groups with
    | some i =>
      have hstep : addPayloadToGroups cfg groups p = appendMemberAt groups i p := by
        rw [addPayloadToGroups, hm]
      rw [hstep]
      obtain ⟨t, hts, heq⟩ := ih (appendMemberAt groups i p)
      refine ⟨t, hts.cons p, ?_⟩
      rw [heq, map_prototype_appendMemberAt]
    | none =>
      have hstep : addPayloadToGroups cfg groups p = groups ++ [⟨p, []⟩] := by
        rw [addPayloadToGroups, hm]
      rw [hstep]
      obtain ⟨t, hts, heq⟩ := ih (groups ++ [⟨p, []⟩])
      refine ⟨p :: t, hts.cons₂ p, ?_⟩
      rw [heq]
      simp

/-- C9: the discovery pass is a pure function of the configuration, the
provider answers and the input sequence — in particular it is independent
of any registry state left over from a previous call (the source resets
both registries on entry), so a second run on unchanged input reproduces
the instance groups, assemblies and assembly groups exactly; and the
prototypes of the returned instance groups form a sublist of the
discovered payload sequence, i.e. group order follows the first-appearance
order of payloads in the input. -/
theorem discovery_deterministic [DecidableEq M] (cfg : Config) (env : GeomOps M)
    (provider : SceneProvider M) (st0 st1 : RegState M) (transforms : List ℕ) :
    separateDiscover cfg env provider st0 transforms =
      separateDiscover cfg env provider st1 transforms ∧
    ∀ res, separateDiscover cfg env provider st0 transforms = Except.ok res →
      List.Sublist (res.groups.map InstanceGroup.prototype)
        (discoveredPayloads cfg env provider transforms) := by
  refine ⟨rfl, ?_⟩
  intro res hres
  obtain ⟨-, -, hres'⟩ := separateDiscover_ok_shape cfg env provider st0 transforms res hres
  subst hres'
  show List.Sublist
    ((groupPayloads cfg (discoveredPayloads cfg env provider transforms)).map
      InstanceGroup.prototype)
    (discoveredPayloads cfg env provider transforms)
  obtain ⟨t, hts, heq⟩ :=
    prototypes_foldl cfg (discoveredPayloads cfg env provider transforms) []
  rw [groupPayloads, heq]
  simpa using hts

/-- Witness for C9: two runs from different leftover registry states give
the same result. -/
theorem discovery_deterministic_witness :
    separateDiscover ({} : Config) trivialOps nullProvider ⟨[(0, 0)], []⟩ [0] =
      separateDiscover ({} : Config) trivialOps nullProvider ⟨[], []⟩ [0] :=
  (discovery_deterministic ({} : Config) trivialOps nullProvider ⟨[(0, 0)], []⟩ ⟨[], []⟩ [0]).1

end InstanceSep
